import Mathlib

/-!
Verification of the actiongraph trace-analysis core.

This file gives a shallow embedding of the two core algorithms of the
actiongraph repository — the hierarchical aggregator (`buildTree`,
`pruneTree`, the rendering traversal of the `tree` command) and the
dependency-reachability filter (`pathfind` / the `graph` command) — and
proves or refutes the frozen specification claims about them.

Representation notes:
* Go strings are embedded as `List Char` where the code decomposes them
  (package paths) and as `String` where they are only compared (`Mode`).
* Go `time.Duration` (an `int64`) is embedded as `Int`; the only
  operations performed on it are addition and comparison.
* The Go `map[string]*pkgtree` child map is embedded as an association
  list keyed by the child path; insertion replaces the entry with the
  matching key (as the map write does) or appends.  Go map iteration
  order is unspecified, so the list order is one admissible refinement;
  the claims that depend on order (`C6`) acknowledge ties/storage order
  as unspecified.
* Per the spec data model, step ids are dense and equal to the array
  position; theorems about the graph command carry this as an explicit
  hypothesis where the code indexes arrays by `act.ID`.
-/

namespace Actiongraph

/-- A decoded build step (`action` in the source).  Fields not consumed by
the two core algorithms (`Objdir`, timestamps, …) are omitted; `dur` is the
precomputed `Duration` field. -/
structure Action where
  id : Int
  mode : String
  package : String
  deps : List Nat
  dur : Int
  deriving Repr, DecidableEq, Inhabited

/-- Node data of the package tree (`pkgtree` in the source, minus the
child map). -/
structure ND where
  path : List Char
  depth : Int
  d : Int
  id : Int
  deriving Repr, DecidableEq, Inhabited

/-- The package tree `pkgtree`: node data plus the child map, embedded as
a list of children keyed by their `path` field (the Go map key is always
the child's own `path`). -/
inductive PkgTree where
  | node : ND → List PkgTree → PkgTree
  deriving Repr, Inhabited

def PkgTree.nd : PkgTree → ND
  | .node n _ => n

def PkgTree.dir : PkgTree → List PkgTree
  | .node _ ds => ds

def PkgTree.path (t : PkgTree) : List Char := t.nd.path

def PkgTree.depth (t : PkgTree) : Int := t.nd.depth

/-- Cumulative duration field `d`. -/
def PkgTree.dval (t : PkgTree) : Int := t.nd.d

def PkgTree.id (t : PkgTree) : Int := t.nd.id

/-- `actNode.dir[path]` — child lookup in the Go map. -/
def lookupChild (dir : List PkgTree) (key : List Char) : Option PkgTree :=
  dir.find? (fun c => c.path == key)

/-- `actNode.dir[path] = p` — map write: replace the entry with the given
key, or append a new entry. -/
def setChild (dir : List PkgTree) (key : List Char) (c : PkgTree) : List PkgTree :=
  match dir with
  | [] => [c]
  | x :: xs => if x.path == key then c :: xs else x :: setChild xs key c

/-- `actNode.d += act.Duration`. -/
def addD (t : PkgTree) (dur : Int) : PkgTree := .node { t.nd with d := t.nd.d + dur } t.dir

/-- `actNode.id = act.ID`. -/
def setId (t : PkgTree) (i : Int) : PkgTree := .node { t.nd with id := i } t.dir

/-- Index of the first `'/'`, mirroring `strings.Index(s, "/")`. -/
def findSlashIdx : List Char → Option Nat
  | [] => none
  | c :: cs => if c = '/' then some 0 else (findSlashIdx cs).map (· + 1)

/-- Recursion of `boundaries` on an explicit structural counter (the
counter strictly dominates the loop variable's remaining headroom, so the
`0` case is unreachable from `boundaries` itself; it is given the same
value the `none` branch produces). -/
def boundariesAux (pkg : List Char) : Nat → Nat → List Nat
  | 0, _ => [pkg.length]
  | fuel + 1, p =>
    match findSlashIdx (pkg.drop (p + 1)) with
    | none => [pkg.length]
    | some pn => (p + pn + 1) :: boundariesAux pkg fuel (p + pn + 1)

/-- The successive prefix lengths the `buildTree` inner loop walks: for
each iteration, the value of `p` after `p += pn + 1` (a slash position) and
finally `len(pkg)`.  Mirrors the loop
`pn := strings.Index(pkg[p+1:], "/"); if pn == -1 { p = len(pkg); more =
false } else { p += pn + 1 }`. -/
def boundaries (pkg : List Char) (p : Nat) : List Nat :=
  boundariesAux pkg (pkg.length - p) p

/-- `isStdlib`: the part of the package path before the first `/`
(`strings.Cut(pkg, "/")`) contains no `'.'`. -/
def cutSlash (l : List Char) : List Char := l.takeWhile (fun c => !(c == '/'))

/-- `isStdlib` from the source. -/
def isStdlib (pkg : String) : Bool := !(cutSlash pkg.data).contains '.'

/-- The package path actually split by `buildTree`: rooted under `"std/"`
when `isStdlib` holds. -/
def stdRoot (pkg : String) : String := if isStdlib pkg then "std/" ++ pkg else pkg

/-- The inner loop of `buildTree` for one build action: walk the prefix
boundaries, ensuring a node exists at each prefix (new nodes get `id = -1`
and the running depth counter), adding the action's duration at every node
stepped into, and finally setting the terminal node's id to the action id. -/
def insertChain (pkg : List Char) (dur : Int) (actId : Int) :
    List Nat → Int → PkgTree → PkgTree
  | [], _, t => setId t actId
  | b :: bs, depth, t =>
    let key := pkg.take b
    let c0 := match lookupChild t.dir key with
      | some c => c
      | none => PkgTree.node ⟨key, depth, 0, -1⟩ []
    PkgTree.node t.nd (setChild t.dir key (insertChain pkg dur actId bs (depth + 1) (addD c0 dur)))

/-- One iteration of the `buildTree` outer loop. -/
def buildStep (root : PkgTree) (act : Action) : PkgTree :=
  if act.mode == "build" then
    let pkg := (stdRoot act.package).data
    insertChain pkg act.dur act.id (boundaries pkg 0) 1 (addD root act.dur)
  else root

/-- `buildTree` from the source (the `part_001` / current version, whose
root is labelled `"(root)"`). -/
def buildTree (actions : List Action) : PkgTree :=
  actions.foldl buildStep (.node ⟨"(root)".data, 0, 0, -1⟩ [])

/-- Sum of the durations of the build-mode steps. -/
def buildDurSum (actions : List Action) : Int :=
  ((actions.filter (fun a => a.mode == "build")).map Action.dur).sum

/-- `rChild.depth = x` (depth assignment during pruning; `pruneTree` never
reads a node's own depth while processing that node's pair, so assigning it
after the recursive call is equivalent to the source's assigning it before
pushing the pair). -/
def setDepth (t : PkgTree) (x : Int) : PkgTree := .node { t.nd with depth := x } t.dir

/-- `pruneTree` from the source, with the recursion depth bounded by an
explicit structural counter.  The work-list of the source processes
disjoint (real, keep) subtree pairs, one work item per child of a pair, so
the whole pass is a per-child map over each node's children.  Case split
on `keep.id == -1` exactly as in the source:
* branch keep node: keep only children whose path exists under the keep
  node, resetting their depth to 0;
* concrete keep node: keep every child, rebasing its depth by the keep
  node's depth, synthesising an `id = 0` placeholder keep child (at the
  keep node's depth) when the path is absent from keep.
The depth assignment happens after the recursive call; the source never
reads a node's own depth while processing that node's pair, so this is
the same function.  The counter dominates the real tree's depth, so the
`0` case is unreachable; counter-irrelevance is proved below. -/
def pruneTreeF : Nat → PkgTree → PkgTree → PkgTree
  | 0, r, _ => r
  | fuel + 1, .node rn rdir, k =>
    .node rn
      (if k.id = -1 then
        rdir.filterMap (fun c =>
          match lookupChild k.dir c.path with
          | none => none
          | some kc => some (setDepth (pruneTreeF fuel c kc) 0))
      else
        rdir.map (fun c =>
          setDepth (pruneTreeF fuel c (match lookupChild k.dir c.path with
            | some kc => kc
            | none => .node ⟨c.path, k.depth, 0, 0⟩ [])) (c.depth - k.depth)))

/-- The tree has depth at most `n`. -/
inductive DepthLE : PkgTree → Nat → Prop where
  | mk {nd : ND} {ds : List PkgTree} {n : Nat} (h : ∀ c ∈ ds, DepthLE c n) :
      DepthLE (.node nd ds) (n + 1)

mutual

/-- Paths of the leaf nodes (nodes with an empty child map) of a tree. -/
def leafPaths : PkgTree → List (List Char)
  | .node n [] => [n.path]
  | .node _ (c :: cs) => leafPathsL (c :: cs)
termination_by t => sizeOf t

def leafPathsL : List PkgTree → List (List Char)
  | [] => []
  | c :: cs => leafPaths c ++ leafPathsL cs
termination_by l => sizeOf l

end

/-- Walk a list of path keys down the tree through `lookupChild`. -/
def lookupPath : PkgTree → List (List Char) → Option PkgTree
  | t, [] => some t
  | t, k :: ks =>
    match lookupChild t.dir k with
    | none => none
    | some c => lookupPath c ks

/-- The successive path prefixes of a package: the node paths `buildTree`
walks for it. -/
def chainKeys (pkg : List Char) : List (List Char) :=
  (boundaries pkg 0).map (fun b => pkg.take b)

/-- The linear chain of nodes `buildTree` creates for a single package
inserted into an empty tree: one node per prefix boundary, synthetic
(`id = -1`) except the terminal node which carries the action id. -/
def mkChain (pkg : List Char) (actId : Int) (dur : Int) : List Nat → Int → List PkgTree
  | [], _ => []
  | [b], depth => [PkgTree.node ⟨pkg.take b, depth, dur, actId⟩ []]
  | b :: b2 :: bs, depth =>
    [PkgTree.node ⟨pkg.take b, depth, dur, -1⟩ (mkChain pkg actId dur (b2 :: bs) (depth + 1))]

/-- `strings.TrimRight(pkg, "/.")`: strip trailing characters from the
cutset. -/
def trimRightSlashDot (s : String) : String :=
  ⟨(s.data.reverse.dropWhile (fun c => c == '/' || c == '.')).reverse⟩

/-- The synthetic single-step focus actions the `tree` command feeds to
`buildTree` to obtain the keep tree. -/
def filterActs (focus : List String) : List Action :=
  focus.map (fun pkg => { id := 0, mode := "build", package := trimRightSlashDot pkg, deps := [], dur := 0 })

/-- A structurally computed bound on the depth of `buildTree actions`
(each action contributes one path chain of length bounded by its package
length plus the `"std/"` prefix). -/
def treeDepthBound (actions : List Action) : Nat :=
  actions.foldl (fun m a => m + a.package.length + 6) 1

/-- `pruneTree(root, keep)` as invoked by the `tree` command, the counter
instantiated with the depth bound of the tree being pruned. -/
def pruneTree (actions : List Action) (root keep : PkgTree) : PkgTree :=
  pruneTreeF (treeDepthBound actions) root keep

/-- The tree rendered by the `tree` command: built from the actions, then
pruned against the keep tree when a focus list is given. -/
def treeRoot (actions : List Action) (focus : List String) : PkgTree :=
  let root := buildTree actions
  if focus.isEmpty then root
  else pruneTree actions root (buildTree (filterActs focus))

/-- One record emitted per displayed node (`treeAction` in the source,
minus the float `CumulativePercent`, which involves no design content).
`act` is the embedded `action` field: the zero value unless `id > 0`. -/
structure Emit where
  id : Int
  package : List Char
  depth : Int
  indent : Nat
  cumDur : Int
  act : Action
  deriving Repr, DecidableEq

/-- Construction of the emitted record, including the
`if n.id > 0 then node.action = actions[n.id]` attachment rule. -/
def emitOf (actions : List Action) (n : PkgTree) (indent : Nat) : Emit :=
  { id := n.id, package := n.path, depth := n.depth, indent := indent,
    cumDur := n.dval,
    act := if n.id > 0 then actions.getD n.id.toNat default else default }

/-- `slices.SortFunc(kids, func(a, b) bool { return a.d > b.d })`:
sort the children by descending cumulative duration.  Embedded as
insertion sort with the total order `b.d ≤ a.d`; the source's sort is
unstable, tie order being explicitly unspecified. -/
def sortDesc (l : List PkgTree) : List PkgTree :=
  l.insertionSort (fun a b => b.dval ≤ a.dval)

/-- State of the rendering traversal: the stack of sibling groups (`dirs`,
innermost group at the head) and the records emitted so far. -/
structure TState where
  dirs : List (List PkgTree)
  out : List Emit

/-- One iteration of the rendering loop of the `tree` command: step up from
an empty innermost group; otherwise take the group's first node, skip it
entirely when the level limit is non-negative and exceeded by its depth,
else emit it and push its children (sorted by descending cumulative
duration) as the new innermost group.  `none` means the loop has finished. -/
def tstep (actions : List Action) (level : Int) (s : TState) : Option TState :=
  match s.dirs with
  | [] => none
  | [] :: rest => some ⟨rest, s.out⟩
  | (n :: ns) :: rest =>
    if 0 ≤ level ∧ level < n.depth then some ⟨ns :: rest, s.out⟩
    else
      let out := s.out ++ [emitOf actions n (s.dirs.length - 1)]
      if n.dir.isEmpty then some ⟨ns :: rest, out⟩
      else some ⟨sortDesc n.dir :: ns :: rest, out⟩

/-- Run the rendering loop on the given fuel; `some` returns the emitted
records once the loop finishes. -/
def trun (actions : List Action) (level : Int) : Nat → TState → Option (List Emit)
  | 0, _ => none
  | fuel + 1, s =>
    match tstep actions level s with
    | none => some s.out
    | some s2 => trun actions level fuel s2

def treeInit (root : PkgTree) : TState := ⟨[[root]], []⟩

/-- The `tree` command: build, optionally prune, then render. -/
def treeCmd (actions : List Action) (level : Int) (focus : List String) (fuel : Nat) :
    Option (List Emit) :=
  trun actions level fuel (treeInit (treeRoot actions focus))

/-- States reachable by the rendering loop from a given start state. -/
inductive TReach (actions : List Action) (level : Int) : TState → TState → Prop where
  | refl (s : TState) : TReach actions level s s
  | tail {s1 s2 s3 : TState} (h1 : TReach actions level s1 s2)
      (h2 : tstep actions level s2 = some s3) : TReach actions level s1 s3

/-- Well-formedness of a (non-root) subtree of `buildTree`'s output:
every child path properly extends the node path, child paths are
distinct, recursively. -/
inductive SubWf : PkgTree → Prop where
  | mk {n : ND} {ds : List PkgTree}
      (hext : ∀ c ∈ ds, ∃ r, r ≠ [] ∧ c.path = n.path ++ r)
      (hnd : (ds.map PkgTree.path).Nodup)
      (hsub : ∀ c ∈ ds, SubWf c) : SubWf (.node n ds)

/-- Well-formedness at the root (whose synthetic label is not a path
prefix of its children). -/
def RootWf (t : PkgTree) : Prop :=
  (t.dir.map PkgTree.path).Nodup ∧ ∀ c ∈ t.dir, SubWf c

/-- The boundary positions handed to `insertChain` are strictly
increasing from the current position and bounded by the package length. -/
inductive BoundsOk (pkg : List Char) : Nat → List Nat → Prop where
  | nil (p : Nat) : BoundsOk pkg p []
  | cons {p b : Nat} {bs : List Nat} (h1 : p < b) (h2 : b ≤ pkg.length)
      (h3 : BoundsOk pkg b bs) : BoundsOk pkg p (b :: bs)

/-- The three marking states of the reachability search, `avoid` /
`unknown` / `follow` in the source (`avoided` / `unknown` / `kept` in the
spec's terms). -/
inductive Mark where
  | avoid
  | unknown
  | follow
  deriving Repr, DecidableEq, Inhabited

/-- `guide[n]` (reads out of range return `unknown`, the zero value; the
theorems about whole runs keep every index in range). -/
def getMark (g : List Mark) (n : Nat) : Mark := g.getD n .unknown

/-- `guide[n] = m` (writes out of range are dropped; same caveat). -/
def setMark (g : List Mark) (n : Nat) (m : Mark) : List Mark := g.set n m

/-- The state of `pathfind`: the marks array and the explicit stack of
sibling-edge lists, innermost frame at the head of the list. -/
structure PState where
  g : List Mark
  stk : List (List Nat)

/-- The stack-trimming loop at the bottom of each `pathfind` iteration:
walking from the innermost frame, set the frame head to `avoid` unless it
is `follow`; pop exhausted (single-entry) frames and continue below;
otherwise drop the head and stop.  (The empty-frame guard case cannot
arise: frames are pushed non-empty and popped when reduced to one
entry.) -/
def trim : List Mark → List (List Nat) → List Mark × List (List Nat)
  | g, [] => (g, [])
  | g, f :: rest =>
    match f with
    | [] => (g, rest)
    | m :: fr =>
      let g2 := if getMark g m = .follow then g else setMark g m .avoid
      match fr with
      | [] => trim g2 rest
      | _ :: _ => (g2, fr :: rest)

/-- `for i := range stack { guide[stack[i][0]] = follow }`. -/
def markHeads (g : List Mark) : List (List Nat) → List Mark
  | [] => g
  | f :: rest =>
    markHeads (match f with
      | [] => g
      | m :: _ => setMark g m .follow) rest

/-- One iteration of the `pathfind` loop: act on the head of the innermost
frame by its mark (`avoid`: nothing; `unknown` with dependencies: push
them and continue; `follow`: mark every frame head on the stack), then
trim the stack.  `none` means the loop has finished. -/
def pstep (deps : Nat → List Nat) (s : PState) : Option PState :=
  match s.stk with
  | [] => none
  | f :: _ =>
    match f with
    | [] => some ⟨s.g, (trim s.g s.stk).2⟩
    | n :: _ =>
      match getMark s.g n with
      | .avoid =>
        let t := trim s.g s.stk
        some ⟨t.1, t.2⟩
      | .unknown =>
        match deps n with
        | [] =>
          let t := trim s.g s.stk
          some ⟨t.1, t.2⟩
        | d :: ds =>
          some ⟨s.g, (d :: ds) :: s.stk⟩
      | .follow =>
        let t := trim (markHeads s.g s.stk) s.stk
        some ⟨t.1, t.2⟩

/-- `pathfind` run on the given fuel; `some` returns the final marks once
the stack empties. -/
def prun (deps : Nat → List Nat) : Nat → PState → Option (List Mark)
  | 0, _ => none
  | fuel + 1, s =>
    match pstep deps s with
    | none => some s.g
    | some s2 => prun deps fuel s2

/-- `edges` as `graph` passes it:
`func(n int) []int { return actions[n].Deps }`. -/
def depsOf (actions : List Action) (n : Nat) : List Nat :=
  (actions.getD n default).deps

/-- `show[act.ID] = avoid` for an `int` id (negative or out-of-range
writes dropped; ids are dense per the data model). -/
def setMarkI (g : List Mark) (i : Int) (m : Mark) : List Mark :=
  if 0 ≤ i then setMark g i.toNat m else g

/-- The `show` array right after the nop-premarking loop of `graph`. -/
def nopMarks (actions : List Action) : List Mark :=
  actions.foldl
    (fun g act => if act.mode == "nop" then setMarkI g act.id Mark.avoid else g)
    (List.replicate actions.length Mark.unknown)

/-- The emitted node and edge sets: one node per `follow` step, one edge
per dependency with both ends `follow`. -/
def graphOut (actions : List Action) (g : List Mark) : List Nat × List (Nat × Nat) :=
  ((List.range actions.length).filter (fun i => getMark g i == Mark.follow),
    (List.range actions.length).foldr
      (fun i acc =>
        if getMark g i == Mark.follow then
          (((actions.getD i default).deps.filter
            (fun d => getMark g d == Mark.follow)).map (fun d => (i, d))) ++ acc
        else acc) [])

/-- The `graph` command (`graph.go`): premark nop steps `avoid`; when a
target is given, mark the first matching build step `follow` or fail with
NotFound; with no target turn every non-avoided step `follow` directly;
otherwise find the first build step (failing with NoRoot) and run
`pathfind` from it; finally collect the `follow` nodes and the edges with
both ends `follow`.  The fuel argument bounds the `pathfind` loop, an
artifact of the embedding (`.error "pathfind: out of fuel"`). -/
def graphRun (actions : List Action) (why : String) (fuel : Nat) :
    Except String (List Nat × List (Nat × Nat)) :=
  let g0 := nopMarks actions
  if why ≠ "" then
    match actions.findIdx? (fun a => a.mode == "build" && a.package == why) with
    | none => Except.error ("could not find package \"" ++ why ++ "\"")
    | some i =>
      let g1 := setMark g0 i Mark.follow
      match actions.find? (fun a => a.mode == "build") with
      | none => Except.error "no first build step"
      | some a =>
        match prun (depsOf actions) fuel ⟨g1, [[a.id.toNat]]⟩ with
        | none => Except.error "pathfind: out of fuel"
        | some gfin => Except.ok (graphOut actions gfin)
  else
    Except.ok (graphOut actions (g0.map (fun m => if m = Mark.avoid then m else Mark.follow)))

/-- A cyclic step sequence: step 0 depends on 1 and 1 depends back on 0,
with a separate target step 2 (package b). -/
def cexActions : List Action :=
  [⟨0, "build", "a", [1], 1⟩, ⟨1, "build", "x", [0], 1⟩, ⟨2, "build", "b", [], 1⟩]

/-- The stack after k iterations of `pathfind` on `cexActions`: the top
frame alternates between [1] and [0] and the stack only grows. -/
def cexStk : Nat → List (List Nat)
  | 0 => [[0]]
  | k + 1 => [(k + 1) % 2] :: cexStk k

/-- The heads of the frames of a stack. -/
def headsOf (stk : List (List Nat)) : List Nat := stk.filterMap List.head?

/-- The potential of one step for the termination measure: an unexplored
(unknown, not currently an open frame head below the top) step will cost
one push of its dependency frame plus visits of the frame entries. -/
def aTerm (deps : Nat → List Nat) (g : List Mark) (oh : List Nat) (v : Nat) : Nat :=
  if getMark g v = Mark.unknown ∧ v ∉ oh then 2 + 2 * (deps v).length else 0

/-- Total number of entries sitting on the stack. -/
def measureT (stk : List (List Nat)) : Nat := (stk.map List.length).sum

/-- The termination measure of a `pathfind` state: unexplored potential
plus stack entries plus stack frames. -/
def pmeasure (deps : Nat → List Nat) (N : Nat) (s : PState) : Nat :=
  (Finset.range N).sum (aTerm deps s.g (headsOf s.stk.tail)) +
    measureT s.stk + s.stk.length

/-- The structural invariant of the `pathfind` stack: frames are
non-empty, frame entries are step indices below N, and each frame is a
set of dependencies of the head of the frame below it. -/
def StkInv (deps : Nat → List Nat) (N : Nat) : List (List Nat) → Prop
  | [] => True
  | f :: rest =>
    f ≠ [] ∧ (∀ m ∈ f, m < N) ∧
      (match rest with
        | [] => True
        | f2 :: _ => ∀ m ∈ f, ∃ h2, f2.head? = some h2 ∧ m ∈ deps h2) ∧
      StkInv deps N rest

/-- Plain dependency reachability: b is reachable from a along `deps`
edges (the "lies on a dependency path" notion of the spec: v is on a path
from start to target iff Reaches start v and Reaches v target). -/
inductive Reaches (deps : Nat → List Nat) : Nat → Nat → Prop where
  | refl (a : Nat) : Reaches deps a a
  | step {a b c : Nat} : b ∈ deps a → Reaches deps b c → Reaches deps a c

/-- Reachability along dependency edges whose sources are all marked
unknown in the initial marks (so paths may not pass through the
pre-marked target or pre-avoided nop steps; the endpoint is
unconstrained). -/
inductive UReach (deps : Nat → List Nat) (g0 : List Mark) : Nat → Nat → Prop where
  | refl (a : Nat) : UReach deps g0 a a
  | step {a b c : Nat} : getMark g0 a = Mark.unknown → b ∈ deps a →
      UReach deps g0 b c → UReach deps g0 a c

/-- The corrected keep condition: v is the target itself, or v is an
initially-unknown step that the search can reach from the start and from
which the target can be reached, in both cases through
initially-unknown steps. -/
def FollowCond (deps : Nat → List Nat) (g0 : List Mark) (s t v : Nat) : Prop :=
  v = t ∨ (getMark g0 v = Mark.unknown ∧ UReach deps g0 s v ∧ UReach deps g0 v t)

/-- All entries sitting on the stack. -/
def elemsOf : List (List Nat) → List Nat
  | [] => []
  | f :: rest => f ++ elemsOf rest

/-- The bottom frame of the `pathfind` stack is always exactly the
start-step frame it was created with. -/
def StkAnchor (s : Nat) : List (List Nat) → Prop
  | [] => True
  | f :: rest => (rest = [] → f = [s]) ∧ StkAnchor s rest

/-- Each frame is the unprocessed suffix of the dependency list of the
head of the frame below it, and every already-processed entry of that
dependency list is marked avoid, or marked follow along with that head. -/
def PairsInv (deps : Nat → List Nat) (g : List Mark) : List (List Nat) → Prop
  | [] => True
  | F :: rest =>
    (match rest with
      | [] => True
      | F2 :: _ =>
        ∃ pre h2, F2.head? = some h2 ∧ pre ++ F = deps h2 ∧
          ∀ d ∈ pre, getMark g d = Mark.avoid ∨
            (getMark g d = Mark.follow ∧ getMark g h2 = Mark.follow)) ∧
    PairsInv deps g rest

/-- Follow marks are downward closed along consecutive frame heads. -/
def HeadsClosed (g : List Mark) : List (List Nat) → Prop
  | [] => True
  | F :: rest =>
    (match rest with
      | [] => True
      | F2 :: _ => ∀ h ∈ F.head?, getMark g h = Mark.follow →
          ∀ h2 ∈ F2.head?, getMark g h2 = Mark.follow) ∧
    HeadsClosed g rest

/-- The master invariant of the `pathfind` machine, relating the current
marks g and stack to the initial marks g0, start step s and target t. -/
structure GInv (deps : Nat → List Nat) (N : Nat) (g0 : List Mark) (s t : Nat)
    (g : List Mark) (stk : List (List Nat)) : Prop where
  len : g.length = N
  stkinv : StkInv deps N stk
  anchor : StkAnchor s stk
  tailU : ∀ F ∈ stk.tail, ∀ h ∈ F.head?, getMark g0 h = Mark.unknown
  tailNA : ∀ F ∈ stk.tail, ∀ h ∈ F.head?, getMark g h ≠ Mark.avoid
  followSound : ∀ v, getMark g v = Mark.follow → FollowCond deps g0 s t v
  avoidSound : ∀ v, getMark g v = Mark.avoid → ¬ FollowCond deps g0 s t v
  unkInit : ∀ v, getMark g v = Mark.unknown → getMark g0 v = Mark.unknown
  tFollow : getMark g t = Mark.follow
  pairs : PairsInv deps g stk
  avoidClosed : ∀ v, getMark g v = Mark.avoid →
      getMark g0 v = Mark.avoid ∨ ∀ d ∈ deps v, getMark g d = Mark.avoid
  headsClosed : HeadsClosed g stk.tail
  followDeps : ∀ w, getMark g w = Mark.follow → w = t ∨
      ∀ d ∈ deps w, getMark g d = Mark.avoid ∨ getMark g d = Mark.follow ∨
        d ∈ elemsOf stk
  nopStay : ∀ v, getMark g0 v = Mark.avoid → getMark g v = Mark.avoid
  changedReach : ∀ v, getMark g v ≠ getMark g0 v → UReach deps g0 s v
  elemsReach : ∀ d ∈ elemsOf stk, UReach deps g0 s d
  sPending : getMark g s ≠ Mark.unknown ∨ s ∈ elemsOf stk

/-- The head of the innermost frame is resolvable by the trimming loop:
it is already settled, or it is unknown with every dependency avoided. -/
def TipResolvable (deps : Nat → List Nat) (g : List Mark) :
    List (List Nat) → Prop
  | [] => True
  | F :: _ => ∀ h ∈ F.head?, getMark g h = Mark.follow ∨
      getMark g h = Mark.avoid ∨
      (getMark g h = Mark.unknown ∧ ∀ d ∈ deps h, getMark g d = Mark.avoid)

@[simp] theorem PkgTree.nd_node (n : ND) (ds : List PkgTree) : (PkgTree.node n ds).nd = n := rfl

@[simp] theorem PkgTree.dir_node (n : ND) (ds : List PkgTree) : (PkgTree.node n ds).dir = ds := rfl

theorem findSlashIdx_lt {l : List Char} {k : Nat} (h : findSlashIdx l = some k) :
    k < l.length := by
  induction l generalizing k with
  | nil => simp [findSlashIdx] at h
  | cons c cs ih =>
    simp only [findSlashIdx] at h
    split at h
    · simp only [Option.some.injEq] at h
      simp [← h]
    · cases hk : findSlashIdx cs with
      | none => simp [hk] at h
      | some j =>
        simp [hk] at h
        have := ih hk
        simp only [List.length_cons]
        omega

/-- The structural counter does not matter: every positive counter value
computes the same list, and at non-positive remaining headroom the `0`
value agrees with what the loop does.  Stated as: the counter can be
replaced by any other value at least as large as the remaining headroom. -/
theorem boundariesAux_counter_irrel (pkg : List Char) :
    ∀ fuel fuel' p, pkg.length - p ≤ fuel → pkg.length - p ≤ fuel' →
      boundariesAux pkg fuel p = boundariesAux pkg fuel' p := by
  intro fuel
  induction fuel with
  | zero =>
    intro fuel' p hf hf'
    cases fuel' with
    | zero => rfl
    | succ fuel' =>
      simp only [boundariesAux]
      cases hx : findSlashIdx (pkg.drop (p + 1)) with
      | none => rfl
      | some pn =>
        have := findSlashIdx_lt hx
        simp only [List.length_drop] at this
        exfalso
        omega
  | succ fuel ih =>
    intro fuel' p hf hf'
    cases fuel' with
    | zero =>
      simp only [boundariesAux]
      cases hx : findSlashIdx (pkg.drop (p + 1)) with
      | none => rfl
      | some pn =>
        have := findSlashIdx_lt hx
        simp only [List.length_drop] at this
        exfalso
        omega
    | succ fuel' =>
      simp only [boundariesAux]
      cases hx : findSlashIdx (pkg.drop (p + 1)) with
      | none => rfl
      | some pn =>
        have := findSlashIdx_lt hx
        simp only [List.length_drop] at this
        exact congrArg (List.cons (p + pn + 1)) (ih fuel' (p + pn + 1) (by omega) (by omega))

/-- Structural induction principle for `PkgTree` (children handled as a
bundled quantifier). -/
theorem pkgtree_ind (P : PkgTree → Prop)
    (h : ∀ n ds, (∀ c ∈ ds, P c) → P (.node n ds)) : ∀ t, P t := by
  intro t
  refine @PkgTree.rec P (fun ds => ∀ c ∈ ds, P c) ?_ ?_ ?_ t
  · exact fun n ds ih => h n ds ih
  · intro c hc
    cases hc
  · intro c cs hc hcs x hx
    cases hx with
    | head => exact hc
    | tail _ h2 => exact hcs x h2

theorem DepthLE.weaken {t : PkgTree} {n m : Nat} (h : DepthLE t n) (hnm : n ≤ m) :
    DepthLE t m := by
  induction h generalizing m with
  | mk hds ih =>
    cases m with
    | zero => omega
    | succ m => exact DepthLE.mk (fun c hc => ih c hc (by omega))

/-- The structural counter of `pruneTreeF` does not matter once it
dominates the real tree's depth. -/
theorem pruneTreeF_irrel {t : PkgTree} {n : Nat} (h : DepthLE t n) :
    ∀ (k : PkgTree) (fuel fuel' : Nat), n ≤ fuel → n ≤ fuel' →
      pruneTreeF fuel t k = pruneTreeF fuel' t k := by
  induction h with
  | mk hds ih =>
    rename_i nd ds n
    intro k fuel fuel' hf hf'
    cases fuel with
    | zero => omega
    | succ f =>
      cases fuel' with
      | zero => omega
      | succ f' =>
        simp only [pruneTreeF]
        congr 1
        split
        · apply List.filterMap_congr
          intro c hc
          cases hlc : lookupChild k.dir c.path with
          | none => rfl
          | some kc =>
            show some (setDepth (pruneTreeF f c kc) 0) =
              some (setDepth (pruneTreeF f' c kc) 0)
            rw [ih c hc kc f f' (by omega) (by omega)]
        · apply List.map_congr_left
          intro c hc
          rw [ih c hc _ f f' (by omega) (by omega)]

theorem pruneTreeF_path (fuel : Nat) (t k : PkgTree) :
    (pruneTreeF fuel t k).path = t.path := by
  cases fuel with
  | zero => rfl
  | succ f => cases t with | node n ds => rfl

@[simp] theorem path_setDepth (t : PkgTree) (x : Int) : (setDepth t x).path = t.path := rfl

@[simp] theorem dir_setDepth (t : PkgTree) (x : Int) : (setDepth t x).dir = t.dir := by
  cases t with | node n ds => rfl

@[simp] theorem depth_setDepth (t : PkgTree) (x : Int) : (setDepth t x).depth = x := rfl

@[simp] theorem id_setDepth (t : PkgTree) (x : Int) : (setDepth t x).id = t.id := rfl

theorem boundariesAux_ne_nil (pkg : List Char) (fuel p : Nat) :
    boundariesAux pkg fuel p ≠ [] := by
  cases fuel with
  | zero => simp [boundariesAux]
  | succ fuel =>
    simp only [boundariesAux]
    split <;> simp

theorem boundaries_ne_nil (pkg : List Char) (p : Nat) : boundaries pkg p ≠ [] :=
  boundariesAux_ne_nil pkg _ p

theorem boundariesAux_getLast (pkg : List Char) :
    ∀ fuel p, (boundariesAux pkg fuel p).getLast? = some pkg.length := by
  intro fuel
  induction fuel with
  | zero => intro p; rfl
  | succ fuel ih =>
    intro p
    simp only [boundariesAux]
    split
    · rfl
    · rename_i pn h
      have h1 := ih (p + pn + 1)
      cases hb : boundariesAux pkg fuel (p + pn + 1) with
      | nil => exact absurd hb (boundariesAux_ne_nil pkg _ _)
      | cons x xs =>
        rw [hb] at h1
        simpa [List.getLast?_cons_cons] using h1

theorem boundaries_getLast (pkg : List Char) (p : Nat) :
    (boundaries pkg p).getLast? = some pkg.length :=
  boundariesAux_getLast pkg _ p

theorem insertChain_path (pkg : List Char) (dur actId : Int) (bs : List Nat) (depth : Int)
    (t : PkgTree) : (insertChain pkg dur actId bs depth t).path = t.path := by
  cases bs with
  | nil => cases t with | node n ds => rfl
  | cons b bs => cases t with | node n ds => rfl

theorem insertChain_cons_nilDir (pkg : List Char) (dur actId : Int) (b : Nat) (bs : List Nat)
    (depth : Int) (t : PkgTree) (h : t.dir = []) :
    insertChain pkg dur actId (b :: bs) depth t =
      PkgTree.node t.nd
        [insertChain pkg dur actId bs (depth + 1)
          (PkgTree.node ⟨pkg.take b, depth, dur, -1⟩ [])] := by
  cases t with | node n ds =>
  simp only [PkgTree.dir_node] at h
  subst h
  simp [insertChain, lookupChild, setChild, addD]

/-- Inserting a package chain into a tree with no children produces exactly
the fresh linear chain. -/
theorem insertChain_fresh (pkg : List Char) (dur actId : Int) (b : Nat) (bs : List Nat)
    (depth : Int) (t : PkgTree) (h : t.dir = []) :
    insertChain pkg dur actId (b :: bs) depth t =
      PkgTree.node t.nd (mkChain pkg actId dur (b :: bs) depth) := by
  induction bs generalizing b depth t with
  | nil =>
    rw [insertChain_cons_nilDir pkg dur actId b [] depth t h]
    simp [insertChain, setId, mkChain]
  | cons b2 bs2 ih =>
    rw [insertChain_cons_nilDir pkg dur actId b (b2 :: bs2) depth t h]
    rw [ih b2 (depth + 1) (PkgTree.node ⟨pkg.take b, depth, dur, -1⟩ []) rfl]
    simp [mkChain]

/-- Walking the chain keys down a fresh chain reaches the terminal node:
path equal to the full (possibly std-rooted) package, carrying the action
id, with no children. -/
theorem lookupPath_mkChain (pkg : List Char) (actId dur : Int) :
    ∀ (bs : List Nat) (depth : Int) (n : ND), bs ≠ [] →
      ∃ ld term,
        bs.getLast? = some ld ∧
        lookupPath (PkgTree.node n (mkChain pkg actId dur bs depth))
            (bs.map (fun b => pkg.take b)) = some term ∧
        term.path = pkg.take ld ∧ term.id = actId ∧ term.dir = [] := by
  intro bs
  induction bs with
  | nil => intro depth n hne; exact absurd rfl hne
  | cons b bs ih =>
    intro depth n hne
    cases bs with
    | nil =>
      refine ⟨b, PkgTree.node ⟨pkg.take b, depth, dur, actId⟩ [], rfl, ?_, rfl, rfl, rfl⟩
      simp [mkChain, lookupPath, lookupChild, List.find?, PkgTree.path, PkgTree.nd]
    | cons b2 bs2 =>
      obtain ⟨ld, term, hlast, hlook, hpath, hid, hdir⟩ :=
        ih (depth + 1) ⟨pkg.take b, depth, dur, -1⟩ (by simp)
      refine ⟨ld, term, ?_, ?_, hpath, hid, hdir⟩
      · rw [List.getLast?_cons_cons]
        exact hlast
      · simp only [mkChain, List.map_cons, lookupPath, lookupChild, List.find?,
          PkgTree.path, PkgTree.nd_node, beq_self_eq_true]
        exact hlook

theorem boundaries_cons (pkg : List Char) (p : Nat) :
    ∃ b bs, boundaries pkg p = b :: bs := by
  cases hx : boundaries pkg p with
  | nil => exact absurd hx (boundaries_ne_nil _ _)
  | cons b bs => exact ⟨b, bs, rfl⟩

/-- `buildTree` on a single build action yields a root holding the
action's duration with the fresh package chain below it. -/
theorem buildTree_single (act : Action) (h : act.mode = "build") :
    buildTree [act] =
      PkgTree.node ⟨"(root)".data, 0, act.dur, -1⟩
        (mkChain (stdRoot act.package).data act.id act.dur
          (boundaries (stdRoot act.package).data 0) 1) := by
  obtain ⟨b, bs, hb⟩ := boundaries_cons (stdRoot act.package).data 0
  simp only [buildTree, List.foldl_cons, List.foldl_nil, buildStep, h, beq_self_eq_true,
    if_true]
  rw [hb, insertChain_fresh _ _ _ _ _ _ _ (by simp [addD])]
  simp [addD]

theorem mem_contains_char (l : List Char) (c : Char) : l.contains c = true ↔ c ∈ l :=
  List.elem_iff

/-- C9: for every build-mode step, `buildTree` roots the step's package
under the reserved `"std/"` prefix iff the first `/`-delimited segment of
the package path contains no `'.'`; otherwise the package path is split
into tree segments unchanged.  The first conjunct exhibits the terminal
node of the walk at the (possibly std-rooted) package path. -/
theorem buildTree_stdlib_rooting (act : Action) (hmode : act.mode = "build") :
    (∃ term, lookupPath (buildTree [act]) (chainKeys (stdRoot act.package).data) = some term ∧
        term.path = (stdRoot act.package).data ∧ term.id = act.id ∧ term.dir = []) ∧
    (stdRoot act.package = "std/" ++ act.package ↔ '.' ∉ cutSlash act.package.data) ∧
    ('.' ∈ cutSlash act.package.data → stdRoot act.package = act.package) := by
  refine ⟨?_, ?_, ?_⟩
  · rw [buildTree_single act hmode]
    obtain ⟨ld, term, hlast, hlook, hpath, hid, hdir⟩ :=
      lookupPath_mkChain (stdRoot act.package).data act.id act.dur
        (boundaries (stdRoot act.package).data 0) 1 ⟨"(root)".data, 0, act.dur, -1⟩
        (boundaries_ne_nil _ _)
    have hld : ld = (stdRoot act.package).data.length := by
      have h2 := boundaries_getLast (stdRoot act.package).data 0
      rw [hlast] at h2
      exact Option.some_injective _ h2
    refine ⟨term, hlook, ?_, hid, hdir⟩
    rw [hpath, hld, List.take_length]
  · constructor
    · intro hstd
      intro hmem
      have hc : isStdlib act.package = false := by
        simp only [isStdlib, Bool.not_eq_false']
        exact (mem_contains_char (cutSlash act.package.data) '.').2 hmem
      rw [stdRoot, hc] at hstd
      simp only [Bool.false_eq_true, if_false] at hstd
      have hlen := congrArg String.length hstd
      rw [String.length_append] at hlen
      have h4 : ("std/" : String).length = 4 := rfl
      omega
    · intro hmem
      have hc : isStdlib act.package = true := by
        simp only [isStdlib, Bool.not_eq_true']
        cases hcc : (cutSlash act.package.data).contains '.' with
        | false => rfl
        | true => exact absurd ((mem_contains_char _ _).1 hcc) hmem
      rw [stdRoot, hc]
      simp
  · intro hmem
    have hc : isStdlib act.package = false := by
      simp only [isStdlib, Bool.not_eq_false']
      exact (mem_contains_char (cutSlash act.package.data) '.').2 hmem
    rw [stdRoot, hc]
    simp

/-- Witness for `buildTree_stdlib_rooting`: the stdlib heuristic applies to
`"fmt"` (no dot in the first segment) and not to `"a.com/b"`. -/
theorem buildTree_stdlib_rooting_witness :
    ((⟨7, "build", "fmt", [], 2⟩ : Action).mode = "build" ∧
      stdRoot "fmt" = "std/" ++ "fmt") ∧
    ((⟨3, "build", "a.com/b", [], 2⟩ : Action).mode = "build" ∧
      stdRoot "a.com/b" = "a.com/b") := by
  refine ⟨⟨rfl, ?_⟩, ⟨rfl, ?_⟩⟩
  · exact (buildTree_stdlib_rooting ⟨7, "build", "fmt", [], 2⟩ rfl).2.1.2 (by decide)
  · exact (buildTree_stdlib_rooting ⟨3, "build", "a.com/b", [], 2⟩ rfl).2.2 (by decide)

/-- Effect of one rendering iteration on the emitted output: unchanged, or
extended by exactly one `emitOf` record. -/
theorem tstep_out (actions : List Action) (level : Int) (s s2 : TState)
    (h : tstep actions level s = some s2) :
    s2.out = s.out ∨ ∃ n ind, s2.out = s.out ++ [emitOf actions n ind] := by
  obtain ⟨dirs, sout⟩ := s
  cases dirs with
  | nil => simp [tstep] at h
  | cons g rest =>
    cases g with
    | nil =>
      simp only [tstep] at h
      cases h
      left
      rfl
    | cons n ns =>
      simp only [tstep] at h
      split at h
      · cases h
        left
        rfl
      · split at h
        · cases h
          exact Or.inr ⟨n, ((n :: ns) :: rest).length - 1, rfl⟩
        · cases h
          exact Or.inr ⟨n, ((n :: ns) :: rest).length - 1, rfl⟩

/-- Any property holding of every record produced by `emitOf` and of the
starting output holds of everything the rendering loop returns. -/
theorem trun_out_prop (actions : List Action) (level : Int) (P : Emit → Prop)
    (hP : ∀ n ind, P (emitOf actions n ind)) :
    ∀ (fuel : Nat) (s : TState) (out : List Emit), (∀ e ∈ s.out, P e) →
      trun actions level fuel s = some out → ∀ e ∈ out, P e := by
  intro fuel
  induction fuel with
  | zero => intro s out _ h; cases h
  | succ fuel ih =>
    intro s out hs h
    unfold trun at h
    cases hstep : tstep actions level s with
    | none =>
      rw [hstep] at h
      cases h
      exact hs
    | some s2 =>
      rw [hstep] at h
      refine ih s2 out ?_ h
      rcases tstep_out actions level s s2 hstep with h2 | ⟨n, ind, h2⟩
      · rw [h2]; exact hs
      · rw [h2]
        intro e he
        rcases List.mem_append.1 he with he1 | he2
        · exact hs e he1
        · rcases List.mem_singleton.1 he2 with rfl
          exact hP n ind

/-- C10: in the tree rendering, the underlying step record is attached to
an emitted node only when the node's id is strictly greater than 0; any
emitted node with id ≤ 0 — including the build step with id 0 and
`pruneTree`'s id-0 placeholders, whose id is not the synthetic -1 — is
rendered with the zero-value step record. -/
theorem emitted_id_attach_rule (actions : List Action) (level : Int) (fuel : Nat)
    (root : PkgTree) (out : List Emit)
    (hrun : trun actions level fuel (treeInit root) = some out) :
    ∀ e ∈ out, (e.id ≤ 0 → e.act = default) ∧
      (0 < e.id → e.act = actions.getD e.id.toNat default) := by
  refine trun_out_prop actions level _ ?_ fuel (treeInit root) out (by intro e he; cases he) hrun
  intro n ind
  constructor
  · intro hle
    have hnot : ¬ n.id > 0 := by
      simpa [emitOf] using hle
    simp [emitOf, hnot]
  · intro hgt
    have hgt2 : n.id > 0 := by
      simpa [emitOf] using hgt
    simp [emitOf, hgt2]

/-- Witness for `emitted_id_attach_rule`: rendering the tree of a single
build step with id 0 emits that step's node with the zero-value record
even though its own duration is 5. -/
theorem emitted_id_attach_rule_witness :
    trun [(⟨0, "build", "a.com", [], 5⟩ : Action)] (-1) 10
        (treeInit (treeRoot [⟨0, "build", "a.com", [], 5⟩] [])) =
      some [(⟨-1, "(root)".data, 0, 0, 5, default⟩ : Emit),
        (⟨0, "a.com".data, 1, 1, 5, default⟩ : Emit)] ∧
    ((⟨-1, "(root)".data, 0, 0, 5, default⟩ : Emit).id ≤ 0 →
      (⟨-1, "(root)".data, 0, 0, 5, default⟩ : Emit).act = default) ∧
    (0 < (⟨-1, "(root)".data, 0, 0, 5, default⟩ : Emit).id →
      (⟨-1, "(root)".data, 0, 0, 5, default⟩ : Emit).act =
        [(⟨0, "build", "a.com", [], 5⟩ : Action)].getD
          (⟨-1, "(root)".data, 0, 0, 5, default⟩ : Emit).id.toNat default) :=
  ⟨by decide,
    emitted_id_attach_rule [⟨0, "build", "a.com", [], 5⟩] (-1) 10
      (treeRoot [⟨0, "build", "a.com", [], 5⟩] [])
      [(⟨-1, "(root)".data, 0, 0, 5, default⟩ : Emit),
        (⟨0, "a.com".data, 1, 1, 5, default⟩ : Emit)] (by decide)
      (⟨-1, "(root)".data, 0, 0, 5, default⟩ : Emit) (by decide)⟩

instance : IsTotal PkgTree (fun a b => b.dval ≤ a.dval) :=
  ⟨fun a b => le_total b.dval a.dval⟩

instance : IsTrans PkgTree (fun a b => b.dval ≤ a.dval) :=
  ⟨fun _ _ _ h1 h2 => le_trans h2 h1⟩

theorem sortDesc_sorted (l : List PkgTree) :
    List.Sorted (fun a b => b.dval ≤ a.dval) (sortDesc l) :=
  List.sorted_insertionSort _ l

theorem sortDesc_perm (l : List PkgTree) : (sortDesc l).Perm l :=
  List.perm_insertionSort _ l

theorem tstep_sorted_groups (actions : List Action) (level : Int) (s s2 : TState)
    (hs : ∀ g ∈ s.dirs, List.Sorted (fun a b => b.dval ≤ a.dval) g)
    (h : tstep actions level s = some s2) :
    ∀ g ∈ s2.dirs, List.Sorted (fun a b => b.dval ≤ a.dval) g := by
  obtain ⟨dirs, sout⟩ := s
  cases dirs with
  | nil => simp [tstep] at h
  | cons g rest =>
    cases g with
    | nil =>
      simp only [tstep] at h
      cases h
      intro g hg
      exact hs g (List.mem_cons_of_mem _ hg)
    | cons n ns =>
      have hns : List.Sorted (fun a b => b.dval ≤ a.dval) ns :=
        (hs (n :: ns) (List.mem_cons_self _ _)).tail
      simp only [tstep] at h
      split at h
      · cases h
        intro g hg
        rcases List.mem_cons.1 hg with rfl | hg2
        · exact hns
        · exact hs g (List.mem_cons_of_mem _ hg2)
      · split at h
        · cases h
          intro g hg
          rcases List.mem_cons.1 hg with rfl | hg2
          · exact hns
          · exact hs g (List.mem_cons_of_mem _ hg2)
        · cases h
          intro g hg
          rcases List.mem_cons.1 hg with rfl | hg2
          · exact sortDesc_sorted _
          · rcases List.mem_cons.1 hg2 with rfl | hg3
            · exact hns
            · exact hs g (List.mem_cons_of_mem _ hg3)

/-- C6: in the tree rendering traversal, every sibling group on the stack
of any reachable state — in particular every children group pushed as the
new innermost group — is sorted by non-increasing cumulative duration, and
the pushed group `sortDesc n.dir` is a permutation of the node's children;
so at every indentation level siblings are emitted heaviest subtree first
(tie order unspecified). -/
theorem tree_siblings_sorted_desc (actions : List Action) (level : Int) (root : PkgTree)
    (s : TState) (h : TReach actions level (treeInit root) s) :
    (∀ g ∈ s.dirs, List.Sorted (fun a b => b.dval ≤ a.dval) g) ∧
    ∀ l : List PkgTree, (sortDesc l).Perm l := by
  refine ⟨?_, fun l => sortDesc_perm l⟩
  induction h with
  | refl =>
    intro g hg
    rcases List.mem_singleton.1 hg with rfl
    simp
  | tail h1 h2 ih => exact tstep_sorted_groups actions level _ _ ih h2

/-- Witness for `tree_siblings_sorted_desc`: a two-step run over a root
with two children of unequal weight. -/
theorem tree_siblings_sorted_desc_witness :
    (∀ g ∈ (TState.mk [sortDesc [PkgTree.node ⟨"x/y".data, 1, 1, -1⟩ [], PkgTree.node ⟨"x/z".data, 1, 2, -1⟩ []], []]
        [emitOf [] (PkgTree.node ⟨"x".data, 0, 3, -1⟩ [PkgTree.node ⟨"x/y".data, 1, 1, -1⟩ [], PkgTree.node ⟨"x/z".data, 1, 2, -1⟩ []]) 0]).dirs,
      List.Sorted (fun a b => b.dval ≤ a.dval) g) ∧
    ∀ l : List PkgTree, (sortDesc l).Perm l :=
  tree_siblings_sorted_desc [] (-1)
    (PkgTree.node ⟨"x".data, 0, 3, -1⟩
      [PkgTree.node ⟨"x/y".data, 1, 1, -1⟩ [], PkgTree.node ⟨"x/z".data, 1, 2, -1⟩ []]) _
    (TReach.tail (TReach.refl _) rfl)

/-- C7 (failing input): in the tree rendering traversal with level limit
0, the pruned tree for focus `["a.com", "a.com/b/c"]` over the single
build step `a.com/b/c` contains the node `a.com/b/c` at depth 0 (within
the limit), reachable only through its parent `a.com/b` whose depth 1
exceeds the limit; the code skips that parent and never pushes its
children, so `a.com/b/c` is absent from the output, although the claim
says each child is tested against the limit individually. -/
theorem level_limit_skips_whole_subtree :
    treeCmd [⟨0, "build", "a.com/b/c", [], 1⟩] 0 ["a.com", "a.com/b/c"] 30 =
      some [⟨-1, "(root)".data, 0, 0, 1, default⟩, ⟨-1, "a.com".data, 0, 1, 1, default⟩] ∧
    lookupPath (treeRoot [⟨0, "build", "a.com/b/c", [], 1⟩] ["a.com", "a.com/b/c"])
        (chainKeys "a.com/b/c".data) =
      some (PkgTree.node ⟨"a.com/b/c".data, 0, 1, 0⟩ []) ∧
    ∀ e ∈ [(⟨-1, "(root)".data, 0, 0, 1, default⟩ : Emit),
        (⟨-1, "a.com".data, 0, 1, 1, default⟩ : Emit)],
      e.package ≠ "a.com/b/c".data := by
  refine ⟨by decide, rfl, by decide⟩

theorem insertChain_dval (pkg : List Char) (dur : Int) (actId : Int)
    (bs : List Nat) (depth : Int) (t : PkgTree) :
    (insertChain pkg dur actId bs depth t).dval = t.dval := by
  cases bs with
  | nil => cases t with | node n ds => rfl
  | cons b bs => cases t with | node n ds => rfl

theorem buildStep_dval (r : PkgTree) (a : Action) :
    (buildStep r a).dval = r.dval + (if a.mode == "build" then a.dur else 0) := by
  unfold buildStep
  split
  · rw [insertChain_dval]
    cases r with | node n ds => simp_all [addD, PkgTree.dval]
  · simp_all

theorem foldl_buildStep_dval (actions : List Action) (acc : PkgTree) :
    (actions.foldl buildStep acc).dval = acc.dval + buildDurSum actions := by
  induction actions generalizing acc with
  | nil => simp [buildDurSum]
  | cons a rest ih =>
    rw [List.foldl_cons, ih, buildStep_dval, buildDurSum, buildDurSum]
    by_cases h : a.mode == "build"
    · simp [h]
      ring
    · simp [h]

/-- C3: for every step sequence, the root node returned by `buildTree` has
cumulative duration equal to the sum of the durations of all steps whose
mode is `"build"`, each counted exactly once, regardless of path nesting
depth. -/
theorem buildTree_root_conservation (actions : List Action) :
    (buildTree actions).dval = buildDurSum actions := by
  rw [buildTree, foldl_buildStep_dval]
  simp [PkgTree.dval]

theorem setChild_mem {ds : List PkgTree} {key : List Char} {c x : PkgTree}
    (h : x ∈ setChild ds key c) : x = c ∨ x ∈ ds := by
  induction ds with
  | nil =>
    simp [setChild] at h
    exact Or.inl h
  | cons y ys ih =>
    simp only [setChild] at h
    split at h
    · rcases List.mem_cons.1 h with rfl | h2
      · exact Or.inl rfl
      · exact Or.inr (List.mem_cons_of_mem _ h2)
    · rcases List.mem_cons.1 h with rfl | h2
      · exact Or.inr (List.mem_cons_self _ _)
      · rcases ih h2 with h3 | h3
        · exact Or.inl h3
        · exact Or.inr (List.mem_cons_of_mem _ h3)

theorem setChild_keys_nodup {ds : List PkgTree} {key : List Char} {c : PkgTree}
    (hnd : (ds.map PkgTree.path).Nodup) (hc : c.path = key) :
    ((setChild ds key c).map PkgTree.path).Nodup := by
  induction ds with
  | nil => simp [setChild]
  | cons y ys ih =>
    simp only [setChild]
    split
    · rename_i hbeq
      have hy : y.path = key := by simpa using hbeq
      simp only [List.map_cons, List.nodup_cons] at hnd ⊢
      refine ⟨?_, hnd.2⟩
      rw [hc, ← hy]
      exact hnd.1
    · rename_i hbeq
      have hy : ¬ y.path = key := by simpa using hbeq
      simp only [List.map_cons, List.nodup_cons] at hnd ⊢
      refine ⟨?_, ih hnd.2⟩
      intro hmem
      rcases List.mem_map.1 hmem with ⟨x, hx1, hx2⟩
      rcases setChild_mem hx1 with rfl | hx3
      · exact hy (hx2 ▸ hc ▸ rfl)
      · exact hnd.1 (List.mem_map.2 ⟨x, hx3, hx2⟩)

theorem boundariesAux_boundsOk (pkg : List Char) :
    ∀ fuel p, p < pkg.length → BoundsOk pkg p (boundariesAux pkg fuel p) := by
  intro fuel
  induction fuel with
  | zero =>
    intro p hp
    exact BoundsOk.cons hp le_rfl (BoundsOk.nil _)
  | succ fuel ih =>
    intro p hp
    simp only [boundariesAux]
    cases hx : findSlashIdx (pkg.drop (p + 1)) with
    | none => exact BoundsOk.cons hp le_rfl (BoundsOk.nil _)
    | some pn =>
      have hlt := findSlashIdx_lt hx
      simp only [List.length_drop] at hlt
      exact BoundsOk.cons (by omega) (by omega) (ih (p + pn + 1) (by omega))

theorem take_extension {pkg : List Char} {p b : Nat} (h1 : p < b) (h2 : b ≤ pkg.length) :
    ∃ r, r ≠ [] ∧ pkg.take b = pkg.take p ++ r := by
  refine ⟨(pkg.drop p).take (b - p), ?_, ?_⟩
  · have hlen : ((pkg.drop p).take (b - p)).length = (b - p) ⊓ (pkg.length - p) := by
      rw [List.length_take, List.length_drop]
    intro hnil
    rw [hnil] at hlen
    simp only [List.length_nil] at hlen
    omega
  · conv_lhs => rw [show b = p + (b - p) from by omega]
    rw [List.take_add]

theorem SubWf_addD {t : PkgTree} (h : SubWf t) (dur : Int) : SubWf (addD t dur) := by
  cases h with
  | mk hext hnd hsub => exact SubWf.mk hext hnd hsub

theorem SubWf_setId {t : PkgTree} (h : SubWf t) (i : Int) : SubWf (setId t i) := by
  cases h with
  | mk hext hnd hsub => exact SubWf.mk hext hnd hsub

theorem path_addD (t : PkgTree) (dur : Int) : (addD t dur).path = t.path := rfl

theorem lookupChild_path {ds : List PkgTree} {key : List Char} {c : PkgTree}
    (h : lookupChild ds key = some c) : c.path = key := by
  have := List.find?_some h
  simpa using this

theorem lookupChild_mem {ds : List PkgTree} {key : List Char} {c : PkgTree}
    (h : lookupChild ds key = some c) : c ∈ ds :=
  List.mem_of_find?_eq_some h

/-- `insertChain` preserves subtree well-formedness when the boundaries
properly extend the node's own path position. -/
theorem insertChain_subwf (pkg : List Char) (dur actId : Int) :
    ∀ (bs : List Nat) (depth : Int) (t : PkgTree) (p : Nat),
      t.path = pkg.take p → SubWf t → BoundsOk pkg p bs →
      SubWf (insertChain pkg dur actId bs depth t) := by
  intro bs
  induction bs with
  | nil =>
    intro depth t p hpath hwf hb
    exact SubWf_setId hwf actId
  | cons b bs ih =>
    intro depth t p hpath hwf hb
    cases hb with
    | cons h1 h2 hb3 =>
      cases t with
      | node tn ds =>
        have hpath2 : tn.path = pkg.take p := by
          simpa [PkgTree.path] using hpath
        cases hwf with
        | mk hext hnd hsub =>
          simp only [insertChain, PkgTree.dir_node, PkgTree.nd_node]
          have hkey : ∀ c0 : PkgTree,
              (match lookupChild ds (pkg.take b) with
                | some c => c
                | none => PkgTree.node ⟨pkg.take b, depth, 0, -1⟩ []) = c0 →
              c0.path = pkg.take b ∧ SubWf c0 := by
            intro c0 hc0
            cases hlc : lookupChild (PkgTree.node tn ds).dir (pkg.take b) with
            | some cfound =>
              simp only [PkgTree.dir_node] at hlc
              rw [hlc] at hc0
              subst hc0
              exact ⟨lookupChild_path hlc, hsub _ (lookupChild_mem hlc)⟩
            | none =>
              simp only [PkgTree.dir_node] at hlc
              rw [hlc] at hc0
              subst hc0
              exact ⟨rfl, SubWf.mk (by simp) (by simp) (by simp)⟩
          obtain ⟨hc0path, hc0wf⟩ := hkey _ rfl
          set c0 := (match lookupChild ds (pkg.take b) with
            | some c => c
            | none => PkgTree.node ⟨pkg.take b, depth, 0, -1⟩ []) with hc0def
          have hc1 : SubWf (insertChain pkg dur actId bs (depth + 1) (addD c0 dur)) :=
            ih (depth + 1) (addD c0 dur) b (by rw [path_addD, hc0path]) (SubWf_addD hc0wf dur) hb3
          have hc1path : (insertChain pkg dur actId bs (depth + 1) (addD c0 dur)).path =
              pkg.take b := by
            rw [insertChain_path, path_addD, hc0path]
          refine SubWf.mk ?_ ?_ ?_
          · intro c hc
            rcases setChild_mem hc with rfl | hc2
            · obtain ⟨r, hr, hr2⟩ := take_extension h1 h2
              refine ⟨r, hr, ?_⟩
              rw [hc1path, hpath2]
              exact hr2
            · simpa using hext c hc2
          · exact setChild_keys_nodup hnd hc1path
          · intro c hc
            rcases setChild_mem hc with rfl | hc2
            · exact hc1
            · exact hsub c hc2

theorem stdRoot_data_len_pos (s : String) : 0 < (stdRoot s).data.length := by
  rw [stdRoot]
  cases hstd : isStdlib s with
  | true =>
    simp only [if_true]
    rw [String.data_append]
    simp
  | false =>
    simp only [Bool.false_eq_true, if_false]
    have hcont : (cutSlash s.data).contains '.' = true := by
      by_contra hc
      simp only [isStdlib, Bool.not_eq_true] at hstd
      rw [Bool.not_eq_true] at hc
      rw [hc] at hstd
      simp at hstd
    have hmem : '.' ∈ cutSlash s.data := (mem_contains_char _ _).1 hcont
    have hne : cutSlash s.data ≠ [] := List.ne_nil_of_mem hmem
    have hsub : (cutSlash s.data).length ≤ s.data.length :=
      (List.takeWhile_sublist _).length_le
    have := List.length_pos.2 hne
    omega

/-- `buildTree` output is well-formed: distinct child paths at every
node, every non-root child path properly extending its parent's. -/
theorem buildTree_rootwf (actions : List Action) : RootWf (buildTree actions) := by
  have hstep : ∀ (t : PkgTree) (a : Action), RootWf t → RootWf (buildStep t a) := by
    intro t a ht
    unfold buildStep
    split
    · obtain ⟨b, bs, hbs⟩ := boundaries_cons (stdRoot a.package).data 0
      show RootWf (insertChain (stdRoot a.package).data a.dur a.id
        (boundaries (stdRoot a.package).data 0) 1 (addD t a.dur))
      rw [hbs]
      have hb := boundariesAux_boundsOk (stdRoot a.package).data
        ((stdRoot a.package).data.length - 0) 0 (stdRoot_data_len_pos a.package)
      rw [show boundariesAux (stdRoot a.package).data ((stdRoot a.package).data.length - 0) 0 =
          boundaries (stdRoot a.package).data 0 from rfl, hbs] at hb
      cases hb with
      | cons h1 h2 hb3 =>
        cases t with
        | node tn ds =>
          obtain ⟨hnd, hsub⟩ := ht
          simp only [PkgTree.dir_node] at hnd hsub
          simp only [insertChain, addD, PkgTree.nd_node, PkgTree.dir_node]
          have hkey : ∀ c0 : PkgTree,
              (match lookupChild ds ((stdRoot a.package).data.take b) with
                | some c => c
                | none => PkgTree.node ⟨(stdRoot a.package).data.take b, 1, 0, -1⟩ []) = c0 →
              c0.path = (stdRoot a.package).data.take b ∧ SubWf c0 := by
            intro c0 hc0
            cases hlc : lookupChild ds ((stdRoot a.package).data.take b) with
            | some cfound =>
              rw [hlc] at hc0
              subst hc0
              exact ⟨lookupChild_path hlc, hsub _ (lookupChild_mem hlc)⟩
            | none =>
              rw [hlc] at hc0
              subst hc0
              exact ⟨rfl, SubWf.mk (by simp) (by simp) (by simp)⟩
          obtain ⟨hc0path, hc0wf⟩ := hkey _ rfl
          set c0 := (match lookupChild ds ((stdRoot a.package).data.take b) with
            | some c => c
            | none => PkgTree.node ⟨(stdRoot a.package).data.take b, 1, 0, -1⟩ []) with hc0def
          have hc1 : SubWf (insertChain (stdRoot a.package).data a.dur a.id bs (1 + 1)
              (addD c0 a.dur)) :=
            insertChain_subwf (stdRoot a.package).data a.dur a.id bs (1 + 1) (addD c0 a.dur) b
              (by rw [path_addD, hc0path]) (SubWf_addD hc0wf a.dur) hb3
          have hc1path : (insertChain (stdRoot a.package).data a.dur a.id bs (1 + 1)
              (addD c0 a.dur)).path = (stdRoot a.package).data.take b := by
            rw [insertChain_path, path_addD, hc0path]
          constructor
          · simpa using setChild_keys_nodup hnd hc1path
          · intro c hc
            simp only [PkgTree.dir_node] at hc
            rcases setChild_mem hc with rfl | hc2
            · exact hc1
            · exact hsub c hc2
    · exact ht
  have hinit : RootWf (PkgTree.node ⟨"(root)".data, 0, 0, -1⟩ []) := by
    constructor
    · simp
    · simp
  rw [buildTree]
  generalize hacc : (PkgTree.node ⟨"(root)".data, 0, 0, -1⟩ [] : PkgTree) = acc
  rw [hacc] at hinit
  clear hacc
  induction actions generalizing acc with
  | nil => exact hinit
  | cons a rest ih => exact ih (buildStep acc a) (hstep acc a hinit)

theorem boundariesAux_length (pkg : List Char) :
    ∀ fuel p, (boundariesAux pkg fuel p).length ≤ fuel + 1 := by
  intro fuel
  induction fuel with
  | zero => intro p; simp [boundariesAux]
  | succ fuel ih =>
    intro p
    simp only [boundariesAux]
    cases hx : findSlashIdx (pkg.drop (p + 1)) with
    | none => simp
    | some pn =>
      simp only [List.length_cons]
      have := ih (p + pn + 1)
      omega

theorem DepthLE_setId {t : PkgTree} {n : Nat} (h : DepthLE t n) (i : Int) :
    DepthLE (setId t i) n := by
  cases h with
  | mk hds => exact DepthLE.mk hds

theorem DepthLE_addD {t : PkgTree} {n : Nat} (h : DepthLE t n) (dur : Int) :
    DepthLE (addD t dur) n := by
  cases h with
  | mk hds => exact DepthLE.mk hds

theorem DepthLE_pos {t : PkgTree} {n : Nat} (h : DepthLE t n) : 1 ≤ n := by
  cases h with
  | mk hds => omega

theorem insertChain_depthLE (pkg : List Char) (dur actId : Int) :
    ∀ (bs : List Nat) (depth : Int) (t : PkgTree) (n : Nat),
      DepthLE t n → DepthLE (insertChain pkg dur actId bs depth t) (n + bs.length) := by
  intro bs
  induction bs with
  | nil =>
    intro depth t n h
    simpa using DepthLE_setId h actId
  | cons b bs ih =>
    intro depth t n h
    cases t with
    | node tn ds =>
      cases h with
      | mk hds =>
        rename_i m
        simp only [insertChain, PkgTree.dir_node, PkgTree.nd_node]
        have hc0 : ∀ c0 : PkgTree,
            (match lookupChild ds (pkg.take b) with
              | some c => c
              | none => PkgTree.node ⟨pkg.take b, depth, 0, -1⟩ []) = c0 →
            DepthLE c0 (m + 1) := by
          intro c0 hc0
          cases hlc : lookupChild ds (pkg.take b) with
          | some cfound =>
            rw [hlc] at hc0
            subst hc0
            exact (hds _ (lookupChild_mem hlc)).weaken (by omega)
          | none =>
            rw [hlc] at hc0
            subst hc0
            exact DepthLE.mk (by simp)
        have hc1 := ih (depth + 1) (addD _ dur) (m + 1) (DepthLE_addD (hc0 _ rfl) dur)
        have : (m + 1) + (b :: bs).length = (m + 1 + bs.length) + 1 := by
          simp [List.length_cons]
          omega
        rw [this]
        refine DepthLE.mk ?_
        intro c hc
        rcases setChild_mem hc with rfl | hc2
        · exact hc1
        · exact (hds c hc2).weaken (by omega)

theorem stdRoot_data_len_le (s : String) :
    (stdRoot s).data.length ≤ s.data.length + 4 := by
  rw [stdRoot]
  cases hstd : isStdlib s with
  | true =>
    simp only [if_true]
    rw [String.data_append]
    simp only [List.length_append, List.length_cons, List.length_nil]
    omega
  | false => simp

theorem buildStep_depthLE {t : PkgTree} {n : Nat} (h : DepthLE t n) (a : Action) :
    DepthLE (buildStep t a) (n + a.package.length + 6) := by
  unfold buildStep
  split
  · have hlen : (boundaries (stdRoot a.package).data 0).length ≤
        a.package.length + 5 := by
      have h1 := boundariesAux_length (stdRoot a.package).data
        ((stdRoot a.package).data.length - 0) 0
      have h2 := stdRoot_data_len_le a.package
      have h3 : a.package.length = a.package.data.length := rfl
      rw [boundaries]
      omega
    have := insertChain_depthLE (stdRoot a.package).data a.dur a.id
      (boundaries (stdRoot a.package).data 0) 1 (addD t a.dur) n (DepthLE_addD h a.dur)
    exact this.weaken (by omega)
  · exact h.weaken (by omega)

/-- The depth of the tree `buildTree` produces is dominated by the
structural bound `treeDepthBound`. -/
theorem buildTree_depthLE (actions : List Action) :
    DepthLE (buildTree actions) (treeDepthBound actions) := by
  rw [buildTree, treeDepthBound]
  have hgen : ∀ (l : List Action) (acc : PkgTree) (n : Nat), DepthLE acc n →
      DepthLE (l.foldl buildStep acc) (l.foldl (fun m a => m + a.package.length + 6) n) := by
    intro l
    induction l with
    | nil => intro acc n h; exact h
    | cons a rest ih =>
      intro acc n h
      exact ih (buildStep acc a) (n + a.package.length + 6) (buildStep_depthLE h a)
  exact hgen actions _ 1 (DepthLE.mk (by simp))

theorem leafPaths_node_nil (n : ND) : leafPaths (.node n []) = [n.path] := by
  rw [leafPaths]

theorem leafPaths_node_cons (n : ND) (c : PkgTree) (cs : List PkgTree) :
    leafPaths (.node n (c :: cs)) = leafPathsL (c :: cs) := by
  rw [leafPaths]

theorem leafPathsL_nil : leafPathsL [] = [] := by
  rw [leafPathsL]

theorem leafPathsL_cons (c : PkgTree) (cs : List PkgTree) :
    leafPathsL (c :: cs) = leafPaths c ++ leafPathsL cs := by
  rw [leafPathsL]

theorem leafPaths_setDepth (t : PkgTree) (x : Int) :
    leafPaths (setDepth t x) = leafPaths t := by
  cases t with
  | node n ds =>
    show leafPaths (PkgTree.node ⟨n.path, x, n.d, n.id⟩ ds) = leafPaths (PkgTree.node n ds)
    cases ds with
    | nil => rw [leafPaths_node_nil, leafPaths_node_nil]
    | cons c cs => rw [leafPaths_node_cons, leafPaths_node_cons]

theorem leafPathsL_map_eq {g : PkgTree → PkgTree} :
    ∀ (l : List PkgTree), (∀ c ∈ l, leafPaths (g c) = leafPaths c) →
      leafPathsL (l.map g) = leafPathsL l := by
  intro l
  induction l with
  | nil => intro _; rfl
  | cons c cs ih =>
    intro hl
    rw [List.map_cons, leafPathsL_cons, leafPathsL_cons, hl c (List.mem_cons_self _ _),
      ih (fun c' hc' => hl c' (List.mem_cons_of_mem _ hc'))]

theorem mem_leafPathsL {q : List Char} :
    ∀ {l : List PkgTree}, q ∈ leafPathsL l ↔ ∃ c ∈ l, q ∈ leafPaths c := by
  intro l
  induction l with
  | nil => simp [leafPathsL_nil]
  | cons c cs ih =>
    rw [leafPathsL_cons]
    simp only [List.mem_append, ih]
    constructor
    · rintro (h | ⟨c2, hc2, hq⟩)
      · exact ⟨c, List.mem_cons_self _ _, h⟩
      · exact ⟨c2, List.mem_cons_of_mem _ hc2, hq⟩
    · rintro ⟨c2, hc2, hq⟩
      rcases List.mem_cons.1 hc2 with rfl | hc3
      · exact Or.inl hq
      · exact Or.inr ⟨c2, hc3, hq⟩

theorem leafPaths_map_children (nd : ND) (g : PkgTree → PkgTree) (l : List PkgTree)
    (h : ∀ c ∈ l, leafPaths (g c) = leafPaths c) :
    leafPaths (.node nd (l.map g)) = leafPaths (.node nd l) := by
  cases l with
  | nil => rw [List.map_nil]
  | cons c cs =>
    rw [List.map_cons, leafPaths_node_cons, leafPaths_node_cons]
    have h2 := leafPathsL_map_eq (c :: cs) h
    rw [List.map_cons] at h2
    exact h2

/-- Pruning against a concrete (non-branch) keep node with no children
keeps the whole subtree: only depths change, so the leaf paths are
untouched. -/
theorem pruneTreeF_keepall :
    ∀ {t : PkgTree} {n : Nat}, DepthLE t n →
      ∀ (k : PkgTree) (fuel : Nat), k.id ≠ -1 → k.dir = [] → n ≤ fuel →
        leafPaths (pruneTreeF fuel t k) = leafPaths t := by
  intro t n h
  induction h with
  | mk hds ih =>
    rename_i nd ds m
    intro k fuel hki hkd hfuel
    cases fuel with
    | zero => omega
    | succ f =>
      simp only [pruneTreeF, if_neg hki, hkd]
      refine leafPaths_map_children nd _ ds ?_
      intro c hc
      rw [leafPaths_setDepth]
      refine ih c hc _ f ?_ rfl (by omega)
      show (PkgTree.node ⟨c.path, k.depth, 0, 0⟩ []).id ≠ -1
      simp [PkgTree.id]

/-- In a well-formed subtree every leaf path extends the subtree root's
path. -/
theorem subwf_leafPaths_ext {t : PkgTree} (h : SubWf t) :
    ∀ q ∈ leafPaths t, ∃ r, q = t.path ++ r := by
  induction h with
  | mk hext hnd hsub ih =>
    rename_i n ds
    intro q hq
    cases ds with
    | nil =>
      rw [leafPaths_node_nil] at hq
      rcases List.mem_singleton.1 hq with rfl
      exact ⟨[], by simp [PkgTree.path]⟩
    | cons c cs =>
      rw [leafPaths_node_cons] at hq
      obtain ⟨c2, hc2, hq2⟩ := mem_leafPathsL.1 hq
      obtain ⟨r1, hr1⟩ := ih c2 hc2 q hq2
      obtain ⟨r0, hr0ne, hr0⟩ := hext c2 hc2
      refine ⟨r0 ++ r1, ?_⟩
      rw [hr1, hr0, List.append_assoc]
      rfl

/-- With distinct child paths, pruning a child list against a
single-child keep map retains exactly the child matching the keep path. -/
theorem filterMap_keep_single (g : PkgTree → PkgTree → PkgTree) :
    ∀ (ds : List PkgTree), (ds.map PkgTree.path).Nodup →
      ∀ {key : List Char} {cfound : PkgTree}, lookupChild ds key = some cfound →
      ∀ (knode : PkgTree), knode.path = key →
      ds.filterMap (fun c =>
        match lookupChild [knode] c.path with
        | none => none
        | some kc => some (g c kc)) = [g cfound knode] := by
  intro ds
  induction ds with
  | nil =>
    intro _ key cfound hfind
    simp [lookupChild] at hfind
  | cons x xs ih =>
    intro hnd key cfound hfind knode hkp
    rw [lookupChild] at hfind
    cases hbeq : (x.path == key) with
    | true =>
      rw [@List.find?_cons_of_pos _ (fun c => c.path == key) x xs hbeq] at hfind
      simp only [Option.some.injEq] at hfind
      subst hfind
      have hxkey : x.path = key := by simpa using hbeq
      simp only [List.filterMap_cons]
      have hx : lookupChild [knode] x.path = some knode := by
        simp [lookupChild, List.find?, hkp, hxkey]
      rw [hx]
      have hrest : xs.filterMap (fun c =>
          match lookupChild [knode] c.path with
          | none => none
          | some kc => some (g c kc)) = [] := by
        rw [List.filterMap_eq_nil_iff]
        intro c hc
        have hcne : c.path ≠ key := by
          simp only [List.map_cons, List.nodup_cons] at hnd
          intro hck
          exact hnd.1 (List.mem_map.2 ⟨c, hc, by rw [hck, ← hxkey]⟩)
        have hb2 : (key == c.path) = false := by
          rw [beq_eq_false_iff_ne]
          exact fun h2 => hcne h2.symm
        have hnone : lookupChild [knode] c.path = none := by
          simp [lookupChild, List.find?, hkp, hb2]
        rw [hnone]
      rw [hrest]
    | false =>
      rw [@List.find?_cons_of_neg _ (fun c => c.path == key) x xs (by simp [hbeq])] at hfind
      have hxne : x.path ≠ key := by simpa using hbeq
      simp only [List.filterMap_cons]
      have hb2 : (key == x.path) = false := by
        rw [beq_eq_false_iff_ne]
        exact fun h2 => hxne h2.symm
      have hx : lookupChild [knode] x.path = none := by
        simp [lookupChild, List.find?, hkp, hb2]
      rw [hx]
      simp only [List.map_cons, List.nodup_cons] at hnd
      exact ih hnd.2 hfind knode hkp

theorem lookupPath_setDepth_cons (t : PkgTree) (x : Int) (k : List Char)
    (ks : List (List Char)) :
    lookupPath (setDepth t x) (k :: ks) = lookupPath t (k :: ks) := by
  simp only [lookupPath, dir_setDepth]

theorem RootWf_of_SubWf {t : PkgTree} (h : SubWf t) : RootWf t := by
  cases h with
  | mk hext hnd hsub => exact ⟨by simpa using hnd, by simpa using hsub⟩

theorem leafPathsL_singleton (x : PkgTree) : leafPathsL [x] = leafPaths x := by
  rw [leafPathsL_cons, leafPathsL_nil, List.append_nil]

/-- Pruning a well-formed tree against the linear keep chain of a single
focus package: the node at the focus path survives with depth reset to 0,
and every leaf of the pruned tree lies at or below the focus path. -/
theorem prune_chain (pkg : List Char) (kid kdur : Int) (hkid : kid ≠ -1) :
    ∀ (bs : List Nat) (b : Nat) (kdepth : Int) (kN : ND), kN.id = -1 →
      ∀ (rt : PkgTree) (n fuel : Nat), DepthLE rt n → n ≤ fuel → RootWf rt →
      ∀ (tP : PkgTree),
      lookupPath rt ((b :: bs).map (fun x => pkg.take x)) = some tP →
      ∃ ld, (b :: bs).getLast? = some ld ∧
        (∃ tP2,
          lookupPath (pruneTreeF fuel rt (.node kN (mkChain pkg kid kdur (b :: bs) kdepth)))
            ((b :: bs).map (fun x => pkg.take x)) = some tP2 ∧ tP2.depth = 0) ∧
        (∀ q ∈
            leafPaths (pruneTreeF fuel rt (.node kN (mkChain pkg kid kdur (b :: bs) kdepth))),
          ∃ r, q = pkg.take ld ++ r) := by
  intro bs
  induction bs with
  | nil =>
    intro b kdepth kN hkN rt n fuel hd hfuel hwf tP hpres
    refine ⟨b, rfl, ?_⟩
    cases rt with | node rn ds =>
    cases hd with | mk hds =>
    rename_i m
    cases fuel with
    | zero => omega
    | succ f =>
      simp only [List.map_cons, List.map_nil, lookupPath, PkgTree.dir_node] at hpres
      cases hlc : lookupChild ds (pkg.take b) with
      | none => rw [hlc] at hpres; cases hpres
      | some c =>
        rw [hlc] at hpres
        simp only [lookupPath, Option.some.injEq] at hpres
        have hid : (PkgTree.node kN (mkChain pkg kid kdur [b] kdepth)).id = -1 := hkN
        have hchain : mkChain pkg kid kdur [b] kdepth =
            [PkgTree.node ⟨pkg.take b, kdepth, kdur, kid⟩ []] := rfl
        have hkids : (pruneTreeF (f + 1) (PkgTree.node rn ds)
            (PkgTree.node kN (mkChain pkg kid kdur [b] kdepth))) =
            PkgTree.node rn
              [setDepth (pruneTreeF f c (PkgTree.node ⟨pkg.take b, kdepth, kdur, kid⟩ [])) 0] := by
          simp only [pruneTreeF]
          rw [if_pos hid]
          simp only [PkgTree.dir_node, hchain]
          have h2 := filterMap_keep_single
            (fun c kc => setDepth (pruneTreeF f c kc) 0) ds hwf.1 hlc
            (PkgTree.node ⟨pkg.take b, kdepth, kdur, kid⟩ []) rfl
          rw [h2]
        rw [hkids]
        have hcpath : c.path = pkg.take b := lookupChild_path hlc
        constructor
        · refine ⟨setDepth (pruneTreeF f c (PkgTree.node ⟨pkg.take b, kdepth, kdur, kid⟩ [])) 0,
            ?_, by simp⟩
          simp only [List.map_cons, List.map_nil, lookupPath, PkgTree.dir_node, lookupChild,
            List.find?, path_setDepth, pruneTreeF_path, hcpath, beq_self_eq_true]
        · intro q hq
          rw [leafPaths_node_cons, leafPathsL_singleton, leafPaths_setDepth] at hq
          have hkeep : leafPaths
              (pruneTreeF f c (PkgTree.node ⟨pkg.take b, kdepth, kdur, kid⟩ [])) =
              leafPaths c :=
            pruneTreeF_keepall (hds c (lookupChild_mem hlc)) _ f hkid rfl (by omega)
          rw [hkeep] at hq
          obtain ⟨r, hr⟩ := subwf_leafPaths_ext (hwf.2 c (lookupChild_mem hlc)) q hq
          exact ⟨r, by rw [hr, hcpath]⟩
  | cons b2 bs2 ih =>
    intro b kdepth kN hkN rt n fuel hd hfuel hwf tP hpres
    cases rt with | node rn ds =>
    cases hd with | mk hds =>
    rename_i m
    cases fuel with
    | zero => omega
    | succ f =>
      simp only [List.map_cons, lookupPath, PkgTree.dir_node] at hpres
      cases hlc : lookupChild ds (pkg.take b) with
      | none => rw [hlc] at hpres; cases hpres
      | some c =>
        rw [hlc] at hpres
        have hid : (PkgTree.node kN (mkChain pkg kid kdur (b :: b2 :: bs2) kdepth)).id = -1 :=
          hkN
        have hchain : mkChain pkg kid kdur (b :: b2 :: bs2) kdepth =
            [PkgTree.node ⟨pkg.take b, kdepth, kdur, -1⟩
              (mkChain pkg kid kdur (b2 :: bs2) (kdepth + 1))] := rfl
        have hkids : (pruneTreeF (f + 1) (PkgTree.node rn ds)
            (PkgTree.node kN (mkChain pkg kid kdur (b :: b2 :: bs2) kdepth))) =
            PkgTree.node rn
              [setDepth (pruneTreeF f c
                (PkgTree.node ⟨pkg.take b, kdepth, kdur, -1⟩
                  (mkChain pkg kid kdur (b2 :: bs2) (kdepth + 1)))) 0] := by
          simp only [pruneTreeF]
          rw [if_pos hid]
          simp only [PkgTree.dir_node, hchain]
          have h2 := filterMap_keep_single
            (fun c kc => setDepth (pruneTreeF f c kc) 0) ds hwf.1 hlc
            (PkgTree.node ⟨pkg.take b, kdepth, kdur, -1⟩
              (mkChain pkg kid kdur (b2 :: bs2) (kdepth + 1))) rfl
          rw [h2]
        rw [hkids]
        have hcpath : c.path = pkg.take b := lookupChild_path hlc
        obtain ⟨ld, hlast, ⟨tP2, hlook2, hdep2⟩, hleaf2⟩ :=
          ih b2 (kdepth + 1) ⟨pkg.take b, kdepth, kdur, -1⟩ rfl c m f
            (hds c (lookupChild_mem hlc)) (by omega)
            (RootWf_of_SubWf (hwf.2 c (lookupChild_mem hlc))) tP hpres
        refine ⟨ld, ?_, ?_, ?_⟩
        · rw [List.getLast?_cons_cons]
          exact hlast
        · refine ⟨tP2, ?_, hdep2⟩
          have hfound : lookupChild
              [setDepth (pruneTreeF f c
                (PkgTree.node ⟨pkg.take b, kdepth, kdur, -1⟩
                  (mkChain pkg kid kdur (b2 :: bs2) (kdepth + 1)))) 0] (pkg.take b) =
              some (setDepth (pruneTreeF f c
                (PkgTree.node ⟨pkg.take b, kdepth, kdur, -1⟩
                  (mkChain pkg kid kdur (b2 :: bs2) (kdepth + 1)))) 0) := by
            simp [lookupChild, List.find?, path_setDepth, pruneTreeF_path, hcpath]
          rw [List.map_cons, lookupPath, PkgTree.dir_node]
          simp only [hfound]
          rw [List.map_cons, lookupPath_setDepth_cons]
          simp only [List.map_cons] at hlook2
          exact hlook2
        · intro q hq
          rw [leafPaths_node_cons, leafPathsL_singleton, leafPaths_setDepth] at hq
          exact hleaf2 q hq

/-- C4: for every step sequence and every focus path `P` present in the
tree built from the steps (hypothesis: walking `P`'s prefix chain from the
root succeeds), after pruning with the keep tree built from the single
focus path `P`, the node at `P`'s path has depth 0, and every remaining
leaf's path equals `P`'s (std-rooted, trimmed) path or extends it. -/
theorem tree_prune_focus_correct (actions : List Action) (P : String) (tP : PkgTree)
    (hpres : lookupPath (buildTree actions)
      (chainKeys (stdRoot (trimRightSlashDot P)).data) = some tP) :
    (∃ tP2, lookupPath (treeRoot actions [P])
        (chainKeys (stdRoot (trimRightSlashDot P)).data) = some tP2 ∧ tP2.depth = 0) ∧
    (∀ q ∈ leafPaths (treeRoot actions [P]),
      ∃ r, q = (stdRoot (trimRightSlashDot P)).data ++ r) := by
  have hkeep : buildTree (filterActs [P]) =
      PkgTree.node ⟨"(root)".data, 0, 0, -1⟩
        (mkChain (stdRoot (trimRightSlashDot P)).data 0 0
          (boundaries (stdRoot (trimRightSlashDot P)).data 0) 1) := by
    have h1 := buildTree_single ⟨0, "build", trimRightSlashDot P, [], 0⟩ rfl
    exact h1
  obtain ⟨b, bs, hbs⟩ := boundaries_cons (stdRoot (trimRightSlashDot P)).data 0
  have hchainkeys : chainKeys (stdRoot (trimRightSlashDot P)).data =
      (b :: bs).map (fun x => (stdRoot (trimRightSlashDot P)).data.take x) := by
    rw [chainKeys, hbs]
  rw [hchainkeys] at hpres
  have htr : treeRoot actions [P] =
      pruneTreeF (treeDepthBound actions) (buildTree actions) (buildTree (filterActs [P])) :=
    rfl
  obtain ⟨ld, hlast, hex, hleaf⟩ :=
    prune_chain (stdRoot (trimRightSlashDot P)).data 0 0 (by decide) bs b 1
      ⟨"(root)".data, 0, 0, -1⟩ rfl (buildTree actions) (treeDepthBound actions)
      (treeDepthBound actions) (buildTree_depthLE actions) le_rfl
      (buildTree_rootwf actions) tP hpres
  have hld : ld = (stdRoot (trimRightSlashDot P)).data.length := by
    have h2 := boundaries_getLast (stdRoot (trimRightSlashDot P)).data 0
    rw [hbs, hlast] at h2
    exact Option.some_injective _ h2
  constructor
  · rw [htr, hkeep, hbs, hchainkeys]
    exact hex
  · rw [htr, hkeep, hbs]
    intro q hq
    obtain ⟨r, hr⟩ := hleaf q hq
    rw [hld, List.take_length] at hr
    exact ⟨r, hr⟩

/-- Witness for `tree_prune_focus_correct`: focusing the tree of the
single build step `a.com/b` on the present path `a.com`. -/
theorem tree_prune_focus_correct_witness :
    (∃ tP2, lookupPath (treeRoot [⟨0, "build", "a.com/b", [], 2⟩] ["a.com"])
        (chainKeys (stdRoot (trimRightSlashDot "a.com")).data) = some tP2 ∧ tP2.depth = 0) ∧
    (∀ q ∈ leafPaths (treeRoot [⟨0, "build", "a.com/b", [], 2⟩] ["a.com"]),
      ∃ r, q = (stdRoot (trimRightSlashDot "a.com")).data ++ r) :=
  tree_prune_focus_correct [⟨0, "build", "a.com/b", [], 2⟩] "a.com"
    (PkgTree.node ⟨"a.com".data, 1, 2, -1⟩ [PkgTree.node ⟨"a.com/b".data, 2, 2, 0⟩ []]) rfl

/-- C2: for every step sequence and every non-empty target package, if no
step has mode build and package exactly equal to the target, the `graph`
command fails with the not-found error and emits no nodes and no edges
(the error return carries no graph output), regardless of fuel. -/
theorem graph_target_notfound (actions : List Action) (why : String) (fuel : Nat)
    (hwhy : why ≠ "")
    (hnone : ∀ a ∈ actions, ¬(a.mode = "build" ∧ a.package = why)) :
    graphRun actions why fuel =
      Except.error ("could not find package \"" ++ why ++ "\"") := by
  have hidx : actions.findIdx? (fun a => a.mode == "build" && a.package == why) = none := by
    refine List.findIdx?_eq_none_iff.mpr ?_
    intro a ha
    have := hnone a ha
    simp only [Bool.and_eq_false_iff, beq_eq_false_iff_ne, ne_eq]
    by_cases hm : a.mode = "build"
    · exact Or.inr (fun hp => this ⟨hm, hp⟩)
    · exact Or.inl hm
  simp only [graphRun, hwhy, if_pos, ne_eq, not_false_iff, if_true, hidx]

/-- C2 witness: a concrete sequence with no build step for package b. -/
theorem graph_target_notfound_witness :
    ("b" : String) ≠ "" ∧
      (∀ a ∈ [Action.mk 0 "build" "a" [] 5], ¬(a.mode = "build" ∧ a.package = "b")) ∧
      graphRun [Action.mk 0 "build" "a" [] 5] "b" 9 =
        Except.error ("could not find package \"" ++ "b" ++ "\"") :=
  ⟨by decide, by decide,
    graph_target_notfound [Action.mk 0 "build" "a" [] 5] "b" 9 (by decide) (by decide)⟩

theorem getMark_setMark (g : List Mark) (m v : Nat) (x : Mark) :
    getMark (setMark g m x) v =
      if m = v ∧ m < g.length then x else getMark g v := by
  simp only [getMark, setMark, List.getD_eq_getElem?_getD, List.getElem?_set]
  by_cases h : m = v
  · subst h
    by_cases hlen : m < g.length
    · simp [hlen]
    · simp [hlen, List.getElem?_eq_none (le_of_not_lt hlen)]
  · simp [h]

theorem setMark_length (g : List Mark) (m : Nat) (x : Mark) :
    (setMark g m x).length = g.length := by
  simp [setMark]

theorem markHeads_length (stk : List (List Nat)) (g : List Mark) :
    (markHeads g stk).length = g.length := by
  induction stk generalizing g with
  | nil => rfl
  | cons f rest ih =>
    cases f with
    | nil => simpa [markHeads] using ih g
    | cons m fr => simp [markHeads, ih, setMark_length]

theorem markHeads_preserves_follow (stk : List (List Nat)) (g : List Mark) (v : Nat)
    (h : getMark g v = .follow) : getMark (markHeads g stk) v = .follow := by
  induction stk generalizing g with
  | nil => exact h
  | cons f rest ih =>
    cases f with
    | nil => exact ih g h
    | cons m fr =>
      refine ih _ ?_
      rw [getMark_setMark]
      by_cases hc : m = v ∧ m < g.length <;> simp [hc, h]

theorem markHeads_heads_follow (stk : List (List Nat)) (g : List Mark)
    (hb : ∀ f ∈ stk, ∀ m ∈ f.head?, m < g.length) :
    ∀ f ∈ stk, ∀ m ∈ f.head?, getMark (markHeads g stk) m = .follow := by
  induction stk generalizing g with
  | nil => intro f hf; cases hf
  | cons f0 rest ih =>
    intro f hf m hm
    cases f0 with
    | nil =>
      rcases List.mem_cons.mp hf with hfe | hfr
      · subst hfe
        cases hm
      · exact ih g (fun f1 h1 => hb f1 (List.mem_cons_of_mem _ h1)) f hfr m hm
    | cons m0 fr0 =>
      rcases List.mem_cons.mp hf with hfe | hfr
      · subst hfe
        have hm0 : m0 = m := by simpa using hm
        subst hm0
        simp only [markHeads]
        refine markHeads_preserves_follow rest _ m0 ?_
        rw [getMark_setMark]
        have hlt : m0 < g.length :=
          hb (m0 :: fr0) (List.mem_cons_self _ _) m0 rfl
        simp [hlt]
      · simp only [markHeads]
        refine ih _ ?_ f hfr m hm
        intro f1 h1 m1 hm1
        rw [setMark_length]
        exact hb f1 (List.mem_cons_of_mem _ h1) m1 hm1

theorem trim_preserves_follow (stk : List (List Nat)) (g : List Mark) (v : Nat)
    (h : getMark g v = .follow) : getMark (trim g stk).1 v = .follow := by
  induction stk generalizing g with
  | nil => exact h
  | cons f rest ih =>
    cases f with
    | nil => exact h
    | cons m fr =>
      have hg2 : getMark (if getMark g m = Mark.follow then g
          else setMark g m Mark.avoid) v = .follow := by
        by_cases hm : getMark g m = Mark.follow
        · simpa [hm] using h
        · rw [if_neg hm, getMark_setMark]
          have hne : ¬(m = v ∧ m < g.length) := by
            rintro ⟨rfl, -⟩
            exact hm h
          simp [hne, h]
      cases fr with
      | nil => simpa [trim] using ih _ hg2
      | cons x xs => simpa [trim] using hg2

theorem trim_preserves_avoid (stk : List (List Nat)) (g : List Mark) (v : Nat)
    (h : getMark g v = .avoid) : getMark (trim g stk).1 v = .avoid := by
  induction stk generalizing g with
  | nil => exact h
  | cons f rest ih =>
    cases f with
    | nil => exact h
    | cons m fr =>
      have hg2 : getMark (if getMark g m = Mark.follow then g
          else setMark g m Mark.avoid) v = .avoid := by
        by_cases hm : getMark g m = Mark.follow
        · simpa [hm] using h
        · rw [if_neg hm, getMark_setMark]
          by_cases hc : m = v ∧ m < g.length <;> simp [hc, h]
      cases fr with
      | nil => simpa [trim] using ih _ hg2
      | cons x xs => simpa [trim] using hg2

/-- C5 counterexample: with dependencies 0 to [1] and 1 to [], the state
whose stack holds frames [1] (innermost) and [0], both steps unknown, has
an unknown top step with an empty dependency list; the claim says this
iteration marks both stacked steps kept, but the code marks both
avoided. -/
theorem resolve_unknown_marks_avoid_cex :
    pstep (fun n => if n = 0 then [1] else [])
        ⟨[Mark.unknown, Mark.unknown], [[1], [0]]⟩ =
      some ⟨[Mark.avoid, Mark.avoid], []⟩ ∧
    getMark [Mark.avoid, Mark.avoid] 1 ≠ Mark.follow ∧
    getMark [Mark.avoid, Mark.avoid] 0 ≠ Mark.follow := by
  refine ⟨rfl, by decide, by decide⟩

/-- C5 (amended): an iteration that finds the top-of-stack step marked
kept resolves by marking every frame head on the stack kept; but an
iteration that finds the top step unknown with an empty dependency list
marks that step avoided (the stack heads below it are then also marked
avoided unless already kept, as the stack trims). -/
theorem resolve_marks_stack (deps : Nat → List Nat) (g : List Mark) (n : Nat)
    (ns : List Nat) (rest : List (List Nat))
    (hb : ∀ f ∈ (n :: ns) :: rest, ∀ m ∈ f.head?, m < g.length) :
    (getMark g n = Mark.follow →
      ∃ s2, pstep deps ⟨g, (n :: ns) :: rest⟩ = some s2 ∧
        ∀ f ∈ (n :: ns) :: rest, ∀ m ∈ f.head?, getMark s2.g m = Mark.follow) ∧
    (getMark g n = Mark.unknown → deps n = [] →
      ∃ s2, pstep deps ⟨g, (n :: ns) :: rest⟩ = some s2 ∧
        getMark s2.g n = Mark.avoid) := by
  constructor
  · intro hf
    refine ⟨⟨(trim (markHeads g ((n :: ns) :: rest)) ((n :: ns) :: rest)).1,
        (trim (markHeads g ((n :: ns) :: rest)) ((n :: ns) :: rest)).2⟩,
      by simp only [pstep, hf], ?_⟩
    intro f hf1 m hm
    exact trim_preserves_follow _ _ m
      (markHeads_heads_follow _ g hb f hf1 m hm)
  · intro hu hd
    refine ⟨⟨(trim g ((n :: ns) :: rest)).1, (trim g ((n :: ns) :: rest)).2⟩,
      by simp only [pstep, hu, hd], ?_⟩
    have hlt : n < g.length := hb (n :: ns) (List.mem_cons_self _ _) n rfl
    have hg2 : getMark (setMark g n Mark.avoid) n = Mark.avoid := by
      rw [getMark_setMark]; simp [hlt]
    have hnf : ¬getMark g n = Mark.follow := by simp [hu]
    cases ns with
    | nil =>
      simpa [trim, hnf] using trim_preserves_avoid rest _ n hg2
    | cons x xs =>
      simpa [trim, hnf] using hg2

/-- C5 amended witness: the kept-top case keeps the whole stack; the
unknown-childless-top case marks the top step avoided. -/
theorem resolve_marks_stack_witness :
    ((∀ f ∈ [[1], [0]], ∀ m ∈ List.head? f, m < 2) ∧
      ∃ s2, pstep (fun n => if n = 0 then [1] else [])
          ⟨[Mark.unknown, Mark.follow], [[1], [0]]⟩ = some s2 ∧
        ∀ f ∈ [[1], [0]], ∀ m ∈ List.head? f, getMark s2.g m = Mark.follow) ∧
    ((∀ f ∈ [[1], [0]], ∀ m ∈ List.head? f, m < 2) ∧
      ∃ s2, pstep (fun n => if n = 0 then [1] else [])
          ⟨[Mark.unknown, Mark.unknown], [[1], [0]]⟩ = some s2 ∧
        getMark s2.g 1 = Mark.avoid) := by
  constructor
  · exact ⟨by decide,
      (resolve_marks_stack (fun n => if n = 0 then [1] else [])
        [Mark.unknown, Mark.follow] 1 [] [[0]] (by decide)).1 (by decide)⟩
  · exact ⟨by decide,
      (resolve_marks_stack (fun n => if n = 0 then [1] else [])
        [Mark.unknown, Mark.unknown] 1 [] [[0]] (by decide)).2 (by decide) (by decide)⟩

theorem cexStk_shape (k : Nat) : ∃ t, cexStk k = [k % 2] :: t := by
  cases k with
  | zero => exact ⟨[], rfl⟩
  | succ k => exact ⟨cexStk k, rfl⟩

theorem pstep_cex (k : Nat) :
    pstep (depsOf cexActions)
        ⟨[Mark.unknown, Mark.unknown, Mark.follow], cexStk k⟩ =
      some ⟨[Mark.unknown, Mark.unknown, Mark.follow], cexStk (k + 1)⟩ := by
  obtain ⟨t, ht⟩ := cexStk_shape k
  rcases Nat.mod_two_eq_zero_or_one k with h2 | h2
  · have hsucc : (k + 1) % 2 = 1 := by omega
    rw [h2] at ht
    have hstep : pstep (depsOf cexActions)
        ⟨[Mark.unknown, Mark.unknown, Mark.follow], [0] :: t⟩ =
        some ⟨[Mark.unknown, Mark.unknown, Mark.follow], [1] :: [0] :: t⟩ := rfl
    rw [ht, hstep,
      show cexStk (k + 1) = [(k + 1) % 2] :: cexStk k from rfl, hsucc, ht]
  · have hsucc : (k + 1) % 2 = 0 := by omega
    rw [h2] at ht
    have hstep : pstep (depsOf cexActions)
        ⟨[Mark.unknown, Mark.unknown, Mark.follow], [1] :: t⟩ =
        some ⟨[Mark.unknown, Mark.unknown, Mark.follow], [0] :: [1] :: t⟩ := rfl
    rw [ht, hstep,
      show cexStk (k + 1) = [(k + 1) % 2] :: cexStk k from rfl, hsucc, ht]

theorem prun_cex (fuel k : Nat) :
    prun (depsOf cexActions) fuel
      ⟨[Mark.unknown, Mark.unknown, Mark.follow], cexStk k⟩ = none := by
  induction fuel generalizing k with
  | zero => rfl
  | succ fuel ih =>
    show (match pstep (depsOf cexActions)
        ⟨[Mark.unknown, Mark.unknown, Mark.follow], cexStk k⟩ with
      | none => some [Mark.unknown, Mark.unknown, Mark.follow]
      | some s2 => prun (depsOf cexActions) fuel s2) = none
    rw [pstep_cex k]
    exact ih (k + 1)

/-- C8 counterexample: on the cyclic step sequence `cexActions`
(0 depends on 1, 1 depends on 0) with target package b, the traversal
re-pushes the unknown cycle forever, so no amount of fuel makes the graph
command succeed: the traversal does not terminate. -/
theorem traversal_cyclic_nonterminating_cex :
    ¬ ∃ fuel res, graphRun cexActions "b" fuel = Except.ok res := by
  rintro ⟨fuel, res, h⟩
  have hrun : graphRun cexActions "b" fuel =
      match prun (depsOf cexActions) fuel
          ⟨[Mark.unknown, Mark.unknown, Mark.follow], [[0]]⟩ with
        | none => Except.error "pathfind: out of fuel"
        | some gfin => Except.ok (graphOut cexActions gfin) := rfl
  rw [hrun, show ([[0]] : List (List Nat)) = cexStk 0 from rfl, prun_cex fuel 0] at h
  exact Except.noConfusion h

theorem head?_mem {f : List Nat} {h : Nat} (hh : f.head? = some h) : h ∈ f := by
  cases f with
  | nil => cases hh
  | cons a l =>
    simp only [List.head?_cons, Option.some.injEq] at hh
    exact hh ▸ List.mem_cons_self _ _

theorem mem_headsOf {stk : List (List Nat)} {v : Nat} :
    v ∈ headsOf stk ↔ ∃ f ∈ stk, f.head? = some v := by
  simp [headsOf, List.mem_filterMap]

theorem headsOf_tail_subset {stk : List (List Nat)} {v : Nat}
    (h : v ∈ headsOf stk.tail) : v ∈ headsOf stk := by
  cases stk with
  | nil => simpa using h
  | cons f rest =>
    rcases mem_headsOf.mp h with ⟨f1, h1, h2⟩
    exact mem_headsOf.mpr ⟨f1, List.mem_cons_of_mem _ h1, h2⟩

theorem StkInv_ne {deps : Nat → List Nat} {N : Nat} {stk : List (List Nat)}
    (h : StkInv deps N stk) : ∀ f ∈ stk, f ≠ [] := by
  induction stk with
  | nil => intro f hf; cases hf
  | cons f0 rest ih =>
    simp only [StkInv] at h
    intro f hf
    rcases List.mem_cons.mp hf with hfe | hfr
    · exact hfe ▸ h.1
    · exact ih h.2.2.2 f hfr

theorem StkInv_bounds {deps : Nat → List Nat} {N : Nat} {stk : List (List Nat)}
    (h : StkInv deps N stk) : ∀ f ∈ stk, ∀ x ∈ f, x < N := by
  induction stk with
  | nil => intro f hf; cases hf
  | cons f0 rest ih =>
    simp only [StkInv] at h
    intro f hf
    rcases List.mem_cons.mp hf with hfe | hfr
    · exact hfe ▸ h.2.1
    · exact ih h.2.2.2 f hfr

theorem StkInv_rank_chain {deps : Nat → List Nat} {N : Nat} {rank : Nat → Nat}
    (hrank : ∀ i, ∀ j ∈ deps i, rank j < rank i) :
    ∀ (rest : List (List Nat)) (f : List Nat), StkInv deps N (f :: rest) →
      ∀ m ∈ f, ∀ v ∈ headsOf rest, rank m < rank v := by
  intro rest
  induction rest with
  | nil =>
    intro f _ m _ v hv
    simp [headsOf] at hv
  | cons f2 r2 ih =>
    intro f hinv m hm v hv
    simp only [StkInv] at hinv
    obtain ⟨h2, hh2, hd2⟩ := hinv.2.2.1 m hm
    rcases mem_headsOf.mp hv with ⟨f1, hf1, hv1⟩
    rcases List.mem_cons.mp hf1 with hfe | hfr
    · subst hfe
      rw [hh2] at hv1
      cases hv1
      exact hrank _ _ hd2
    · have hchain := ih f2 hinv.2.2.2 h2 (head?_mem hh2) v
        (mem_headsOf.mpr ⟨f1, hfr, hv1⟩)
      exact lt_trans (hrank _ _ hd2) hchain

theorem StkInv_tip_notin {deps : Nat → List Nat} {N : Nat} {rank : Nat → Nat}
    (hrank : ∀ i, ∀ j ∈ deps i, rank j < rank i)
    {f : List Nat} {rest : List (List Nat)} (hinv : StkInv deps N (f :: rest))
    {m : Nat} (hm : m ∈ f) : m ∉ headsOf rest := fun hv =>
  absurd (StkInv_rank_chain hrank rest f hinv m hm m hv) (lt_irrefl _)

theorem markHeads_marks (stk : List (List Nat)) (g : List Mark) (v : Nat) :
    getMark (markHeads g stk) v = getMark g v ∨
      getMark (markHeads g stk) v = Mark.follow := by
  induction stk generalizing g with
  | nil => exact Or.inl rfl
  | cons f rest ih =>
    cases f with
    | nil => exact ih g
    | cons m fr =>
      simp only [markHeads]
      rcases ih (setMark g m Mark.follow) with h | h
      · rw [h, getMark_setMark]
        by_cases hc : m = v ∧ m < g.length
        · exact Or.inr (if_pos hc)
        · exact Or.inl (if_neg hc)
      · exact Or.inr h

theorem trim_length (stk : List (List Nat)) (g : List Mark) :
    (trim g stk).1.length = g.length := by
  induction stk generalizing g with
  | nil => rfl
  | cons f rest ih =>
    cases f with
    | nil => rfl
    | cons m fr =>
      have hg2 : (if getMark g m = Mark.follow then g
          else setMark g m Mark.avoid).length = g.length := by
        by_cases hm : getMark g m = Mark.follow <;> simp [hm, setMark_length]
      cases fr with
      | nil => simpa [trim, hg2] using (ih _).trans hg2
      | cons x xs => simpa [trim] using hg2

theorem trim_marks (stk : List (List Nat)) (g : List Mark) (v : Nat) :
    getMark (trim g stk).1 v = getMark g v ∨
      getMark (trim g stk).1 v = Mark.avoid := by
  induction stk generalizing g with
  | nil => exact Or.inl rfl
  | cons f rest ih =>
    cases f with
    | nil => exact Or.inl rfl
    | cons m fr =>
      have hg2 : getMark (if getMark g m = Mark.follow then g
            else setMark g m Mark.avoid) v = getMark g v ∨
          getMark (if getMark g m = Mark.follow then g
            else setMark g m Mark.avoid) v = Mark.avoid := by
        by_cases hm : getMark g m = Mark.follow
        · exact Or.inl (by rw [if_pos hm])
        · rw [if_neg hm, getMark_setMark]
          by_cases hc : m = v ∧ m < g.length
          · exact Or.inr (if_pos hc)
          · exact Or.inl (if_neg hc)
      cases fr with
      | nil =>
        show getMark (trim _ rest).1 v = _ ∨ _
        rcases ih (if getMark g m = Mark.follow then g
            else setMark g m Mark.avoid) with h | h
        · rcases hg2 with h2 | h2
          · exact Or.inl (h.trans h2)
          · exact Or.inr (h.trans h2)
        · exact Or.inr h
      | cons x xs => simpa [trim] using hg2

theorem trim_heads (stk : List (List Nat)) (g : List Mark)
    (hne : ∀ f ∈ stk, f ≠ [])
    (hb : ∀ f ∈ stk, ∀ x ∈ f, x < g.length) :
    ∀ v ∈ headsOf stk, getMark (trim g stk).1 v ≠ Mark.unknown ∨
      v ∈ headsOf (trim g stk).2.tail := by
  induction stk generalizing g with
  | nil => intro v hv; simp [headsOf] at hv
  | cons f rest ih =>
    cases f with
    | nil => exact absurd rfl (hne [] (List.mem_cons_self _ _))
    | cons m fr =>
      intro v hv
      have hmlt : m < g.length :=
        hb (m :: fr) (List.mem_cons_self _ _) m (List.mem_cons_self _ _)
      have hg2m : getMark (if getMark g m = Mark.follow then g
          else setMark g m Mark.avoid) m ≠ Mark.unknown := by
        by_cases hm : getMark g m = Mark.follow
        · rw [if_pos hm, hm]; exact Mark.noConfusion
        · rw [if_neg hm, getMark_setMark, if_pos ⟨rfl, hmlt⟩]
          exact Mark.noConfusion
      have hg2len : (if getMark g m = Mark.follow then g
          else setMark g m Mark.avoid).length = g.length := by
        by_cases hm : getMark g m = Mark.follow <;> simp [hm, setMark_length]
      have hv1 : v = m ∨ v ∈ headsOf rest := by
        rcases mem_headsOf.mp hv with ⟨f1, hf1, hh1⟩
        rcases List.mem_cons.mp hf1 with hfe | hfr
        · subst hfe
          simp only [List.head?_cons, Option.some.injEq] at hh1
          exact Or.inl hh1.symm
        · exact Or.inr (mem_headsOf.mpr ⟨f1, hfr, hh1⟩)
      cases fr with
      | nil =>
        show getMark (trim _ rest).1 v ≠ Mark.unknown ∨
          v ∈ headsOf (trim _ rest).2.tail
        rcases hv1 with hvm | hvr
        · subst hvm
          refine Or.inl ?_
          rcases trim_marks rest _ v with h | h
          · rw [h]; exact hg2m
          · rw [h]; exact Mark.noConfusion
        · exact ih _ (fun f1 h1 => hne f1 (List.mem_cons_of_mem _ h1))
            (fun f1 h1 x hx =>
              hg2len ▸ hb f1 (List.mem_cons_of_mem _ h1) x hx) v hvr
      | cons y ys =>
        show getMark (if getMark g m = Mark.follow then g
              else setMark g m Mark.avoid) v ≠ Mark.unknown ∨
          v ∈ headsOf ((y :: ys) :: rest).tail
        rcases hv1 with hvm | hvr
        · subst hvm
          exact Or.inl hg2m
        · exact Or.inr (by simpa using hvr)

theorem trim_shrink (stk : List (List Nat)) (g : List Mark) (hstk : stk ≠ []) :
    measureT (trim g stk).2 + (trim g stk).2.length <
      measureT stk + stk.length := by
  induction stk generalizing g with
  | nil => exact absurd rfl hstk
  | cons f rest ih =>
    cases f with
    | nil =>
      show measureT rest + rest.length < measureT ([] :: rest) + ([] :: rest).length
      simp [measureT]
    | cons m fr =>
      cases fr with
      | nil =>
        show measureT (trim _ rest).2 + (trim _ rest).2.length <
          measureT ([m] :: rest) + ([m] :: rest).length
        cases rest with
        | nil => simp [trim, measureT]
        | cons r1 r2 =>
          have h1 := ih (if getMark g m = Mark.follow then g
            else setMark g m Mark.avoid) (by simp)
          have h2 : measureT ([m] :: r1 :: r2) = 1 + measureT (r1 :: r2) := by
            simp [measureT]
          rw [h2]
          simp only [List.length_cons] at h1 ⊢
          omega
      | cons y ys =>
        show measureT ((y :: ys) :: rest) + ((y :: ys) :: rest).length <
          measureT ((m :: y :: ys) :: rest) + ((m :: y :: ys) :: rest).length
        simp [measureT]

theorem trim_inv {deps : Nat → List Nat} {N : Nat} (stk : List (List Nat))
    (g : List Mark) (hinv : StkInv deps N stk) :
    StkInv deps N (trim g stk).2 := by
  induction stk generalizing g with
  | nil => trivial
  | cons f rest ih =>
    simp only [StkInv] at hinv
    obtain ⟨hne, hb, hlink, hrest⟩ := hinv
    cases f with
    | nil => exact absurd rfl hne
    | cons m fr =>
      cases fr with
      | nil => exact ih _ hrest
      | cons y ys =>
        show StkInv deps N ((y :: ys) :: rest)
        simp only [StkInv]
        refine ⟨by simp, ?_, ?_, hrest⟩
        · intro x hx
          exact hb x (List.mem_cons_of_mem _ hx)
        · cases rest with
          | nil => trivial
          | cons f2 r2 =>
            intro x hx
            exact hlink x (List.mem_cons_of_mem _ hx)

theorem trim_measure_le {deps : Nat → List Nat} {N : Nat}
    (stk : List (List Nat)) (g gm : List Mark)
    (hunk : ∀ v, getMark gm v = Mark.unknown → getMark g v = Mark.unknown)
    (hne : ∀ f ∈ stk, f ≠ []) (hb : ∀ f ∈ stk, ∀ x ∈ f, x < gm.length)
    (hstk : stk ≠ []) :
    (Finset.range N).sum
        (aTerm deps (trim gm stk).1 (headsOf (trim gm stk).2.tail)) +
      measureT (trim gm stk).2 + (trim gm stk).2.length <
    (Finset.range N).sum (aTerm deps g (headsOf stk.tail)) +
      measureT stk + stk.length := by
  have hA : (Finset.range N).sum
      (aTerm deps (trim gm stk).1 (headsOf (trim gm stk).2.tail)) ≤
      (Finset.range N).sum (aTerm deps g (headsOf stk.tail)) := by
    refine Finset.sum_le_sum ?_
    intro v _
    by_cases hc : getMark (trim gm stk).1 v = Mark.unknown ∧
        v ∉ headsOf (trim gm stk).2.tail
    · have hu2 : getMark gm v = Mark.unknown := by
        rcases trim_marks stk gm v with h | h
        · exact h ▸ hc.1
        · rw [h] at hc; exact absurd hc.1 Mark.noConfusion
      have hu : getMark g v = Mark.unknown := hunk v hu2
      have hnoh : v ∉ headsOf stk.tail := by
        intro hv
        rcases trim_heads stk gm hne hb v (headsOf_tail_subset hv) with h | h
        · exact h hc.1
        · exact hc.2 h
      rw [aTerm, if_pos hc, aTerm, if_pos ⟨hu, hnoh⟩]
    · rw [aTerm, if_neg hc]
      exact Nat.zero_le _
  have hTL := trim_shrink stk gm hstk
  omega

theorem pstep_decrease {deps : Nat → List Nat} {N : Nat} {rank : Nat → Nat}
    (hdeps : ∀ i, ∀ j ∈ deps i, j < N)
    (hrank : ∀ i, ∀ j ∈ deps i, rank j < rank i)
    {s s2 : PState} (hlen : s.g.length = N) (hinv : StkInv deps N s.stk)
    (hstep : pstep deps s = some s2) :
    s2.g.length = N ∧ StkInv deps N s2.stk ∧
      pmeasure deps N s2 < pmeasure deps N s := by
  obtain ⟨g, stk⟩ := s
  cases stk with
  | nil => exact Option.noConfusion hstep
  | cons f rest =>
  simp only at hlen hinv
  have hfne := StkInv_ne hinv f (List.mem_cons_self _ _)
  have hne := StkInv_ne hinv
  have hb : ∀ f1 ∈ f :: rest, ∀ x ∈ f1, x < g.length := by
    intro f1 h1 x hx
    rw [hlen]
    exact StkInv_bounds hinv f1 h1 x hx
  cases f with
  | nil => exact absurd rfl hfne
  | cons n ns =>
  have hnN : n < N :=
    StkInv_bounds hinv (n :: ns) (List.mem_cons_self _ _) n (List.mem_cons_self _ _)
  cases hmark : getMark g n with
  | avoid =>
    have hps : pstep deps ⟨g, (n :: ns) :: rest⟩ =
        some ⟨(trim g ((n :: ns) :: rest)).1, (trim g ((n :: ns) :: rest)).2⟩ := by
      simp only [pstep, hmark]
    rw [hps, Option.some_inj] at hstep
    subst hstep
    refine ⟨(trim_length _ _).trans hlen, trim_inv _ _ hinv, ?_⟩
    exact trim_measure_le _ g g (fun v h => h) hne hb (by simp)
  | follow =>
    have hps : pstep deps ⟨g, (n :: ns) :: rest⟩ =
        some ⟨(trim (markHeads g ((n :: ns) :: rest)) ((n :: ns) :: rest)).1,
          (trim (markHeads g ((n :: ns) :: rest)) ((n :: ns) :: rest)).2⟩ := by
      simp only [pstep, hmark]
    rw [hps, Option.some_inj] at hstep
    subst hstep
    have hmlen : (markHeads g ((n :: ns) :: rest)).length = g.length :=
      markHeads_length _ _
    refine ⟨(trim_length _ _).trans (hmlen.trans hlen),
      trim_inv _ _ hinv, ?_⟩
    refine trim_measure_le _ g _ ?_ hne ?_ (by simp)
    · intro v hv
      rcases markHeads_marks ((n :: ns) :: rest) g v with h | h
      · exact h ▸ hv
      · rw [h] at hv; exact absurd hv Mark.noConfusion
    · intro f1 h1 x hx
      rw [hmlen]
      exact hb f1 h1 x hx
  | unknown =>
    cases hdn : deps n with
    | nil =>
      have hps : pstep deps ⟨g, (n :: ns) :: rest⟩ =
          some ⟨(trim g ((n :: ns) :: rest)).1, (trim g ((n :: ns) :: rest)).2⟩ := by
        simp only [pstep, hmark, hdn]
      rw [hps, Option.some_inj] at hstep
      subst hstep
      refine ⟨(trim_length _ _).trans hlen, trim_inv _ _ hinv, ?_⟩
      exact trim_measure_le _ g g (fun v h => h) hne hb (by simp)
    | cons d ds =>
      have hps : pstep deps ⟨g, (n :: ns) :: rest⟩ =
          some ⟨g, (d :: ds) :: (n :: ns) :: rest⟩ := by
        simp only [pstep, hmark, hdn]
      rw [hps, Option.some_inj] at hstep
      subst hstep
      refine ⟨hlen, ?_, ?_⟩
      · show StkInv deps N ((d :: ds) :: (n :: ns) :: rest)
        simp only [StkInv]
        exact ⟨by simp, fun m hm => hdeps n m (hdn ▸ hm),
          fun m hm => ⟨n, rfl, hdn ▸ hm⟩, hinv⟩
      · have hnotin : n ∉ headsOf rest :=
          StkInv_tip_notin hrank hinv (List.mem_cons_self _ _)
        have hoh : headsOf ((n :: ns) :: rest) = n :: headsOf rest := by
          simp [headsOf]
        have hFn : aTerm deps g (headsOf rest) n = 2 + 2 * (deps n).length :=
          if_pos ⟨hmark, hnotin⟩
        have hpt : ∀ v ∈ Finset.range N,
            aTerm deps g (headsOf ((n :: ns) :: rest)) v ≤
              if v = n then 0 else aTerm deps g (headsOf rest) v := by
          intro v _
          by_cases hvn : v = n
          · subst hvn
            rw [if_pos rfl, aTerm, if_neg]
            rintro ⟨-, hnot⟩
            exact hnot (hoh ▸ List.mem_cons_self _ _)
          · rw [if_neg hvn, aTerm, aTerm, hoh]
            by_cases hc : getMark g v = Mark.unknown ∧ v ∉ n :: headsOf rest
            · rw [if_pos hc, if_pos ⟨hc.1, fun hv =>
                hc.2 (List.mem_cons_of_mem _ hv)⟩]
            · rw [if_neg hc]
              exact Nat.zero_le _
        have hA : (Finset.range N).sum (aTerm deps g (headsOf ((n :: ns) :: rest))) ≤
            (Finset.range N).sum
              (fun v => if v = n then 0 else aTerm deps g (headsOf rest) v) :=
          Finset.sum_le_sum hpt
        have hnr : n ∈ Finset.range N := Finset.mem_range.mpr hnN
        have hsplit1 : ((Finset.range N).erase n).sum
              (fun v => if v = n then 0 else aTerm deps g (headsOf rest) v) +
            (if n = n then 0 else aTerm deps g (headsOf rest) n) =
            (Finset.range N).sum
              (fun v => if v = n then 0 else aTerm deps g (headsOf rest) v) :=
          Finset.sum_erase_add _ _ hnr
        have hcongr : ((Finset.range N).erase n).sum
              (fun v => if v = n then 0 else aTerm deps g (headsOf rest) v) =
            ((Finset.range N).erase n).sum (aTerm deps g (headsOf rest)) := by
          refine Finset.sum_congr rfl ?_
          intro x hx
          rw [if_neg (Finset.ne_of_mem_erase hx)]
        have hsplit2 : ((Finset.range N).erase n).sum (aTerm deps g (headsOf rest)) +
            aTerm deps g (headsOf rest) n =
            (Finset.range N).sum (aTerm deps g (headsOf rest)) :=
          Finset.sum_erase_add _ _ hnr
        have hlds : (d :: ds).length = (deps n).length := by rw [hdn]
        show (Finset.range N).sum (aTerm deps g (headsOf ((n :: ns) :: rest))) +
            measureT ((d :: ds) :: (n :: ns) :: rest) +
            ((d :: ds) :: (n :: ns) :: rest).length <
          (Finset.range N).sum (aTerm deps g (headsOf rest)) +
            measureT ((n :: ns) :: rest) + ((n :: ns) :: rest).length
        have hmt : measureT ((d :: ds) :: (n :: ns) :: rest) =
            (d :: ds).length + measureT ((n :: ns) :: rest) := by
          simp [measureT]
        rw [if_pos rfl] at hsplit1
        simp only [List.length_cons] at hlds hmt ⊢
        omega

theorem prun_halts {deps : Nat → List Nat} {N : Nat} {rank : Nat → Nat}
    (hdeps : ∀ i, ∀ j ∈ deps i, j < N)
    (hrank : ∀ i, ∀ j ∈ deps i, rank j < rank i) :
    ∀ (M : Nat) (s : PState), s.g.length = N → StkInv deps N s.stk →
      pmeasure deps N s ≤ M → ∃ res, prun deps (M + 1) s = some res := by
  intro M
  induction M with
  | zero =>
    intro s _ _ hm
    obtain ⟨g, stk⟩ := s
    cases stk with
    | nil => exact ⟨g, rfl⟩
    | cons f rest =>
      exfalso
      simp only [pmeasure, List.length_cons] at hm
      omega
  | succ M ih =>
    intro s hlen hinv hm
    cases hps : pstep deps s with
    | none =>
      refine ⟨s.g, ?_⟩
      show (match pstep deps s with
        | none => some s.g
        | some s2 => prun deps (M + 1) s2) = some s.g
      rw [hps]
    | some s2 =>
      obtain ⟨hlen2, hinv2, hdec⟩ := pstep_decrease hdeps hrank hlen hinv hps
      obtain ⟨res, hres⟩ := ih s2 hlen2 hinv2 (by omega)
      refine ⟨res, ?_⟩
      show (match pstep deps s with
        | none => some s.g
        | some s2 => prun deps (M + 1) s2) = some res
      rw [hps]
      exact hres

/-- C8 (amended): on an acyclic dependency structure — witnessed by a
rank function that strictly decreases along dependencies — the `pathfind`
traversal from any start step terminates: some fuel makes the run return
final marks.  (On a cyclic input the claim fails: an unknown cycle is
re-pushed forever, since no visited state is recorded while descending.) -/
theorem traversal_terminates_acyclic (deps : Nat → List Nat) (N : Nat)
    (rank : Nat → Nat) (g : List Mark) (start : Nat)
    (hlen : g.length = N)
    (hdeps : ∀ i, ∀ j ∈ deps i, j < N)
    (hrank : ∀ i, ∀ j ∈ deps i, rank j < rank i)
    (hstart : start < N) :
    ∃ fuel res, prun deps fuel ⟨g, [[start]]⟩ = some res := by
  have hinv : StkInv deps N [[start]] := by
    simp only [StkInv]
    refine ⟨by simp, ?_, trivial, trivial⟩
    intro m hm
    have hms : m = start := by simpa using hm
    exact hms ▸ hstart
  obtain ⟨res, hres⟩ := prun_halts hdeps hrank
    (pmeasure deps N ⟨g, [[start]]⟩) ⟨g, [[start]]⟩ hlen hinv (le_refl _)
  exact ⟨_, res, hres⟩

/-- C8 amended witness: a concrete single-step acyclic sequence. -/
theorem traversal_terminates_acyclic_witness :
    ([Mark.unknown] : List Mark).length = 1 ∧
      (∀ i, ∀ j ∈ depsOf [⟨0, "build", "a", [], 1⟩] i, j < 1) ∧
      (∀ i, ∀ j ∈ depsOf [⟨0, "build", "a", [], 1⟩] i, (0 : Nat) < 0) ∧
      0 < 1 ∧
      ∃ fuel res, prun (depsOf [⟨0, "build", "a", [], 1⟩]) fuel
        ⟨[Mark.unknown], [[0]]⟩ = some res := by
  have hd : ∀ i, ∀ j ∈ depsOf [Action.mk 0 "build" "a" [] 1] i, j < 1 := by
    intro i j hj
    match i with
    | 0 => simp [depsOf] at hj
    | n + 1 =>
      simp only [depsOf, List.getD_cons_succ, List.getD_nil] at hj
      simp [show (default : Action).deps = [] from rfl] at hj
  have hr : ∀ i, ∀ j ∈ depsOf [Action.mk 0 "build" "a" [] 1] i, (0 : Nat) < 0 := by
    intro i j hj
    refine absurd hj ?_
    match i with
    | 0 => simp [depsOf]
    | n + 1 =>
      simp only [depsOf, List.getD_cons_succ, List.getD_nil]
      simp [show (default : Action).deps = [] from rfl]
  exact ⟨rfl, hd, hr, by decide,
    traversal_terminates_acyclic (depsOf [Action.mk 0 "build" "a" [] 1]) 1
      (fun _ => 0) [Mark.unknown] 0 rfl hd hr (by decide)⟩

/-- C1 counterexample: two independent build steps, the second being the
target.  The target step 1 does not lie on any dependency path from the
start step 0 (it is unreachable from the start), so per the claim it
should not be kept and should remain unknown; but the graph command
emits it as kept (node 1 in the output). -/
theorem kept_despite_no_path_cex :
    graphRun [⟨0, "build", "a", [], 1⟩, ⟨1, "build", "b", [], 1⟩] "b" 2 =
      Except.ok ([1], []) ∧
    ¬ Reaches (depsOf [⟨0, "build", "a", [], 1⟩, ⟨1, "build", "b", [], 1⟩]) 0 1 := by
  constructor
  · rfl
  · intro h
    cases h with
    | step hb hr => simp [depsOf] at hb

theorem UReach_snoc {deps : Nat → List Nat} {g0 : List Mark} {a b c : Nat}
    (h : UReach deps g0 a b) (hb : getMark g0 b = Mark.unknown)
    (hc : c ∈ deps b) : UReach deps g0 a c := by
  induction h with
  | refl a => exact UReach.step hb hc (UReach.refl c)
  | step hU hd _ ih => exact UReach.step hU hd (ih hb hc)

theorem mem_elemsOf {stk : List (List Nat)} {v : Nat} :
    v ∈ elemsOf stk ↔ ∃ f ∈ stk, v ∈ f := by
  induction stk with
  | nil => simp [elemsOf]
  | cons f rest ih =>
    simp only [elemsOf, List.mem_append, ih, List.mem_cons]
    constructor
    · rintro (h | ⟨f1, h1, h2⟩)
      · exact ⟨f, Or.inl rfl, h⟩
      · exact ⟨f1, Or.inr h1, h2⟩
    · rintro ⟨f1, h1 | h1, h2⟩
      · exact Or.inl (h1 ▸ h2)
      · exact Or.inr ⟨f1, h1, h2⟩

theorem headsOf_subset_elems {stk : List (List Nat)} {v : Nat}
    (h : v ∈ headsOf stk) : v ∈ elemsOf stk := by
  rcases mem_headsOf.mp h with ⟨f, hf, hh⟩
  exact mem_elemsOf.mpr ⟨f, hf, head?_mem hh⟩

theorem markHeads_not_head (stk : List (List Nat)) (g : List Mark) (v : Nat)
    (hv : v ∉ headsOf stk) : getMark (markHeads g stk) v = getMark g v := by
  induction stk generalizing g with
  | nil => rfl
  | cons f rest ih =>
    cases f with
    | nil =>
      have hv2 : v ∉ headsOf rest := by
        intro h2
        exact hv (mem_headsOf.mpr
          (by rcases mem_headsOf.mp h2 with ⟨f1, h1, hx⟩
              exact ⟨f1, List.mem_cons_of_mem _ h1, hx⟩))
      exact ih g hv2
    | cons m fr =>
      have hvm : v ≠ m := by
        intro hvm
        exact hv (mem_headsOf.mpr ⟨m :: fr, List.mem_cons_self _ _, hvm ▸ rfl⟩)
      have hv2 : v ∉ headsOf rest := by
        intro h2
        exact hv (mem_headsOf.mpr
          (by rcases mem_headsOf.mp h2 with ⟨f1, h1, hx⟩
              exact ⟨f1, List.mem_cons_of_mem _ h1, hx⟩))
      simp only [markHeads]
      rw [ih _ hv2, getMark_setMark]
      have : ¬(m = v ∧ m < g.length) := by
        rintro ⟨rfl, -⟩
        exact hvm rfl
      rw [if_neg this]

theorem markHeads_follow_src {stk : List (List Nat)} {g : List Mark} {v : Nat}
    (h : getMark (markHeads g stk) v = Mark.follow) :
    getMark g v = Mark.follow ∨ v ∈ headsOf stk := by
  by_cases hv : v ∈ headsOf stk
  · exact Or.inr hv
  · rw [markHeads_not_head stk g v hv] at h
    exact Or.inl h

theorem pairs_pred {deps : Nat → List Nat} {g : List Mark} :
    ∀ (stk : List (List Nat)), PairsInv deps g stk → ∀ v, v ∈ headsOf stk.tail →
      ∃ pre Fa, pre ++ Fa = deps v ∧ (∀ d ∈ Fa, d ∈ elemsOf stk) ∧
        ∀ d ∈ pre, getMark g d = Mark.avoid ∨ getMark g d = Mark.follow := by
  intro stk
  induction stk with
  | nil => intro _ v hv; simp [headsOf] at hv
  | cons F rest ih =>
    intro hp v hv
    simp only [List.tail_cons] at hv
    cases rest with
    | nil => simp [headsOf] at hv
    | cons F2 rest2 =>
      simp only [PairsInv] at hp
      rcases mem_headsOf.mp hv with ⟨f1, h1, hh1⟩
      rcases List.mem_cons.mp h1 with hfe | hfr
      · subst hfe
        obtain ⟨pre, h2, hh2, heq, hcond⟩ := hp.1
        rw [hh1] at hh2
        cases hh2
        refine ⟨pre, F, heq, ?_, ?_⟩
        · intro d hd
          exact mem_elemsOf.mpr ⟨F, List.mem_cons_self _ _, hd⟩
        · intro d hd
          rcases hcond d hd with h | h
          · exact Or.inl h
          · exact Or.inr h.1
      · obtain ⟨pre, Fa, heq, hFa, hcond⟩ := ih hp.2 v
          (by
            simp only [List.tail_cons]
            exact mem_headsOf.mpr ⟨f1, hfr, hh1⟩)
        refine ⟨pre, Fa, heq, ?_, hcond⟩
        intro d hd
        rcases mem_elemsOf.mp (hFa d hd) with ⟨f2, hf2, hdf2⟩
        exact mem_elemsOf.mpr ⟨f2, List.mem_cons_of_mem _ hf2, hdf2⟩

theorem heads_followcond {deps : Nat → List Nat} {N : Nat} {g0 : List Mark}
    {s t : Nat} :
    ∀ (rest : List (List Nat)) (F : List Nat),
      StkInv deps N (F :: rest) →
      (∀ F1 ∈ rest, ∀ h ∈ F1.head?, getMark g0 h = Mark.unknown) →
      (∀ d ∈ elemsOf (F :: rest), UReach deps g0 s d) →
      (∀ h ∈ F.head?, FollowCond deps g0 s t h) →
      ∀ h ∈ headsOf (F :: rest), FollowCond deps g0 s t h := by
  intro rest
  induction rest with
  | nil =>
    intro F _ _ _ hF h hh
    rcases mem_headsOf.mp hh with ⟨f1, h1, hh1⟩
    rcases List.mem_cons.mp h1 with hfe | hfr
    · exact hF h (hfe ▸ hh1)
    · cases hfr
  | cons F2 rest2 ih =>
    intro F hinv hU helems hF h hh
    simp only [StkInv] at hinv
    obtain ⟨hFne, hFb, hlink, hinv2⟩ := hinv
    have hF2cond : ∀ h2 ∈ F2.head?, FollowCond deps g0 s t h2 := by
      intro h2 hh2
      have hU2 : getMark g0 h2 = Mark.unknown :=
        hU F2 (List.mem_cons_self _ _) h2 hh2
      have hreach2 : UReach deps g0 s h2 :=
        helems h2 (mem_elemsOf.mpr ⟨F2, List.mem_cons_of_mem _ (List.mem_cons_self _ _),
          head?_mem hh2⟩)
      cases F with
      | nil => exact absurd rfl hFne
      | cons n F0 =>
        obtain ⟨h2a, hh2a, hnd⟩ := hlink n (List.mem_cons_self _ _)
        rw [hh2] at hh2a
        cases hh2a
        have hvt : UReach deps g0 h2 t := by
          rcases hF n rfl with hnt | ⟨-, -, hnt⟩
          · exact UReach.step hU2 (hnt ▸ hnd) (UReach.refl t)
          · exact UReach.step hU2 hnd hnt
        exact Or.inr ⟨hU2, hreach2, hvt⟩
    rcases mem_headsOf.mp hh with ⟨f1, h1, hh1⟩
    rcases List.mem_cons.mp h1 with hfe | hfr
    · exact hF h (hfe ▸ hh1)
    · refine ih F2 hinv2 (fun F1 hf1 => hU F1 (List.mem_cons_of_mem _ hf1)) ?_
        hF2cond h (mem_headsOf.mpr ⟨f1, hfr, hh1⟩)
      intro d hd
      rcases mem_elemsOf.mp hd with ⟨f2, hf2, hdf2⟩
      exact helems d (mem_elemsOf.mpr ⟨f2, List.mem_cons_of_mem _ hf2, hdf2⟩)

theorem tip_not_followcond {deps : Nat → List Nat} {g0 g : List Mark}
    {s t m : Nat}
    (htF : getMark g t = Mark.follow)
    (hmu : getMark g m = Mark.unknown)
    (hdm : ∀ d ∈ deps m, getMark g d = Mark.avoid)
    (haS : ∀ v, getMark g v = Mark.avoid → ¬ FollowCond deps g0 s t v)
    (hreach : UReach deps g0 s m) :
    ¬ FollowCond deps g0 s t m := by
  rintro (rfl | ⟨hU, hsv, hvt⟩)
  · rw [htF] at hmu
    exact Mark.noConfusion hmu
  · cases hvt with
    | refl =>
      rw [htF] at hmu
      exact Mark.noConfusion hmu
    | step hUm hd hr =>
      rename_i b
      have hb : getMark g b = Mark.avoid := hdm b hd
      refine haS b hb ?_
      cases hr with
      | refl => exact Or.inl rfl
      | step hUb hd2 hr2 =>
        refine Or.inr ⟨hUb, UReach_snoc hsv hU hd, UReach.step hUb hd2 hr2⟩

theorem trim_cons_single (g : List Mark) (m : Nat) (rest : List (List Nat)) :
    trim g ((m :: ([] : List Nat)) :: rest) =
      trim (if getMark g m = Mark.follow then g else setMark g m Mark.avoid)
        rest := rfl

theorem trim_cons_multi (g : List Mark) (m y : Nat) (ys : List Nat)
    (rest : List (List Nat)) :
    trim g ((m :: y :: ys) :: rest) =
      ((if getMark g m = Mark.follow then g else setMark g m Mark.avoid),
        (y :: ys) :: rest) := rfl

theorem mem_of_tail {α : Type} {l : List α} {x : α} (h : x ∈ l.tail) : x ∈ l := by
  cases l with
  | nil => simp at h
  | cons a l2 => exact List.mem_cons_of_mem _ h

theorem headsClosed_tail {g : List Mark} :
    ∀ stk : List (List Nat), HeadsClosed g stk → HeadsClosed g stk.tail := by
  intro stk h
  cases stk with
  | nil => trivial
  | cons F rest =>
    simp only [HeadsClosed] at h
    exact h.2

theorem pairsInv_transfer {deps : Nat → List Nat} {g g2 : List Mark}
    (hA : ∀ v, getMark g v = Mark.avoid → getMark g2 v = Mark.avoid)
    (hF : ∀ v, getMark g v = Mark.follow → getMark g2 v = Mark.follow) :
    ∀ stk, PairsInv deps g stk → PairsInv deps g2 stk := by
  intro stk
  induction stk with
  | nil => intro h; trivial
  | cons F rest ih =>
    intro h
    simp only [PairsInv] at h ⊢
    refine ⟨?_, ih h.2⟩
    cases rest with
    | nil => trivial
    | cons F2 rest2 =>
      obtain ⟨pre, h2, hh2, heq, hcond⟩ := h.1
      refine ⟨pre, h2, hh2, heq, ?_⟩
      intro d hd
      rcases hcond d hd with hc | hc
      · exact Or.inl (hA d hc)
      · exact Or.inr ⟨hF d hc.1, hF h2 hc.2⟩

theorem headsClosed_transfer {g g2 : List Mark}
    (h21 : ∀ v, getMark g2 v = Mark.follow → getMark g v = Mark.follow)
    (h12 : ∀ v, getMark g v = Mark.follow → getMark g2 v = Mark.follow) :
    ∀ stk, HeadsClosed g stk → HeadsClosed g2 stk := by
  intro stk
  induction stk with
  | nil => intro h; trivial
  | cons F rest ih =>
    intro h
    simp only [HeadsClosed] at h ⊢
    refine ⟨?_, ih h.2⟩
    cases rest with
    | nil => trivial
    | cons F2 rest2 =>
      intro h1 hh1 hf1 h2 hh2
      exact h12 h2 (h.1 h1 hh1 (h21 h1 hf1) h2 hh2)

theorem write_ginv {deps : Nat → List Nat} {N : Nat} {g0 : List Mark}
    {s t : Nat} {g : List Mark} {m : Nat} {fr : List Nat}
    {rest : List (List Nat)}
    (hGI : GInv deps N g0 s t g ((m :: fr) :: rest))
    (hmf : getMark g m ≠ Mark.follow)
    (hnfc : ¬ FollowCond deps g0 s t m)
    (hsett : getMark g m = Mark.avoid ∨ ∀ d ∈ deps m, getMark g d = Mark.avoid)
    (hm_notin : m ∉ headsOf rest) :
    GInv deps N g0 s t (setMark g m Mark.avoid) ((m :: fr) :: rest) := by
  have hmN : m < N := StkInv_bounds hGI.stkinv (m :: fr) (List.mem_cons_self _ _) m
    (List.mem_cons_self _ _)
  have hlen := hGI.len
  have hEq : ∀ v, v ≠ m → getMark (setMark g m Mark.avoid) v = getMark g v := by
    intro v hv
    rw [getMark_setMark, if_neg]
    rintro ⟨rfl, -⟩
    exact hv rfl
  have hM : getMark (setMark g m Mark.avoid) m = Mark.avoid := by
    rw [getMark_setMark, if_pos ⟨rfl, hlen.symm ▸ hmN⟩]
  have hAvP : ∀ v, getMark g v = Mark.avoid →
      getMark (setMark g m Mark.avoid) v = Mark.avoid := by
    intro v hv
    by_cases h : v = m
    · exact h ▸ hM
    · rw [hEq v h]; exact hv
  have hFoP : ∀ v, getMark g v = Mark.follow →
      getMark (setMark g m Mark.avoid) v = Mark.follow := by
    intro v hv
    have hne : v ≠ m := fun h => hmf (h ▸ hv)
    rw [hEq v hne]; exact hv
  have hFoB : ∀ v, getMark (setMark g m Mark.avoid) v = Mark.follow →
      getMark g v = Mark.follow := by
    intro v hv
    by_cases h : v = m
    · rw [h, hM] at hv; exact absurd hv Mark.noConfusion
    · rw [hEq v h] at hv; exact hv
  have hUnB : ∀ v, getMark (setMark g m Mark.avoid) v = Mark.unknown →
      getMark g v = Mark.unknown := by
    intro v hv
    by_cases h : v = m
    · rw [h, hM] at hv; exact absurd hv Mark.noConfusion
    · rw [hEq v h] at hv; exact hv
  have hmreach : UReach deps g0 s m :=
    hGI.elemsReach m (mem_elemsOf.mpr ⟨m :: fr, List.mem_cons_self _ _,
      List.mem_cons_self _ _⟩)
  refine ⟨?_, hGI.stkinv, hGI.anchor, hGI.tailU, ?_, ?_, ?_, ?_, ?_, ?_, ?_, ?_,
    ?_, ?_, ?_, hGI.elemsReach, ?_⟩
  · rw [setMark_length]; exact hlen
  · -- tailNA
    intro F hF h hh
    have hne : h ≠ m := by
      rintro rfl
      exact hm_notin (mem_headsOf.mpr ⟨F, hF, hh⟩)
    rw [hEq h hne]
    exact hGI.tailNA F hF h hh
  · -- followSound
    intro v hv
    exact hGI.followSound v (hFoB v hv)
  · -- avoidSound
    intro v hv
    by_cases h : v = m
    · exact h ▸ hnfc
    · rw [hEq v h] at hv
      exact hGI.avoidSound v hv
  · -- unkInit
    intro v hv
    exact hGI.unkInit v (hUnB v hv)
  · -- tFollow
    exact hFoP t hGI.tFollow
  · -- pairs
    exact pairsInv_transfer hAvP hFoP _ hGI.pairs
  · -- avoidClosed
    intro v hv
    by_cases h : v = m
    · subst h
      rcases hsett with hc | hc
      · rcases hGI.avoidClosed v hc with h1 | h1
        · exact Or.inl h1
        · exact Or.inr (fun d hd => hAvP d (h1 d hd))
      · exact Or.inr (fun d hd => hAvP d (hc d hd))
    · rw [hEq v h] at hv
      rcases hGI.avoidClosed v hv with h1 | h1
      · exact Or.inl h1
      · exact Or.inr (fun d hd => hAvP d (h1 d hd))
  · -- headsClosed
    exact headsClosed_transfer hFoB hFoP _ hGI.headsClosed
  · -- followDeps
    intro w hw
    rcases hGI.followDeps w (hFoB w hw) with h1 | h1
    · exact Or.inl h1
    · refine Or.inr ?_
      intro d hd
      rcases h1 d hd with h2 | h2 | h2
      · exact Or.inl (hAvP d h2)
      · exact Or.inr (Or.inl (hFoP d h2))
      · exact Or.inr (Or.inr h2)
  · -- nopStay
    intro v hv
    exact hAvP v (hGI.nopStay v hv)
  · -- changedReach
    intro v hv
    by_cases h : v = m
    · exact h ▸ hmreach
    · rw [hEq v h] at hv
      exact hGI.changedReach v hv
  · -- sPending
    rcases hGI.sPending with h1 | h1
    · left
      by_cases h : s = m
      · rw [h, hM]; exact Mark.noConfusion
      · rw [hEq s h]; exact h1
    · exact Or.inr h1

theorem pop_ginv {deps : Nat → List Nat} {N : Nat} {g0 : List Mark}
    {s t : Nat} {g : List Mark} {m : Nat} {rest : List (List Nat)}
    (hGI : GInv deps N g0 s t g ([m] :: rest))
    (hsett : getMark g m ≠ Mark.unknown) :
    GInv deps N g0 s t g rest := by
  have hstk := hGI.stkinv
  simp only [StkInv] at hstk
  have hanch := hGI.anchor
  simp only [StkAnchor] at hanch
  have hpairs := hGI.pairs
  simp only [PairsInv] at hpairs
  refine ⟨hGI.len, hstk.2.2.2, hanch.2, ?_, ?_, hGI.followSound, hGI.avoidSound,
    hGI.unkInit, hGI.tFollow, hpairs.2, hGI.avoidClosed, ?_, ?_, hGI.nopStay,
    hGI.changedReach, ?_, ?_⟩
  · intro F hF h hh
    exact hGI.tailU F (mem_of_tail hF) h hh
  · intro F hF h hh
    exact hGI.tailNA F (mem_of_tail hF) h hh
  · exact headsClosed_tail rest hGI.headsClosed
  · -- followDeps
    intro w hw
    rcases hGI.followDeps w hw with h1 | h1
    · exact Or.inl h1
    · refine Or.inr ?_
      intro d hd
      rcases h1 d hd with h2 | h2 | h2
      · exact Or.inl h2
      · exact Or.inr (Or.inl h2)
      · rcases mem_elemsOf.mp h2 with ⟨F1, hF1, hdF1⟩
        rcases List.mem_cons.mp hF1 with hFe | hFr
        · subst hFe
          have hdm : d = m := by simpa using hdF1
          subst hdm
          cases hmk : getMark g d with
          | unknown => exact absurd hmk hsett
          | avoid => exact Or.inl rfl
          | follow => exact Or.inr (Or.inl rfl)
        · exact Or.inr (Or.inr (mem_elemsOf.mpr ⟨F1, hFr, hdF1⟩))
  · intro d hd
    rcases mem_elemsOf.mp hd with ⟨F1, hF1, hdF1⟩
    exact hGI.elemsReach d (mem_elemsOf.mpr ⟨F1, List.mem_cons_of_mem _ hF1, hdF1⟩)
  · rcases hGI.sPending with h1 | h1
    · exact Or.inl h1
    · rcases mem_elemsOf.mp h1 with ⟨F1, hF1, hsF1⟩
      rcases List.mem_cons.mp hF1 with hFe | hFr
      · subst hFe
        have hsm : s = m := by simpa using hsF1
        exact Or.inl (hsm ▸ hsett)
      · exact Or.inr (mem_elemsOf.mpr ⟨F1, hFr, hsF1⟩)

theorem shift_ginv {deps : Nat → List Nat} {N : Nat} {g0 : List Mark}
    {s t : Nat} {g : List Mark} {m y : Nat} {ys : List Nat}
    {rest : List (List Nat)}
    (hGI : GInv deps N g0 s t g ((m :: y :: ys) :: rest))
    (hsett : getMark g m ≠ Mark.unknown)
    (hfnext : getMark g m = Mark.follow →
      ∀ F2 ∈ rest.head?, ∀ h2 ∈ F2.head?, getMark g h2 = Mark.follow) :
    GInv deps N g0 s t g ((y :: ys) :: rest) := by
  have hstk := hGI.stkinv
  simp only [StkInv] at hstk
  have hanch := hGI.anchor
  simp only [StkAnchor] at hanch
  have hpairs := hGI.pairs
  simp only [PairsInv] at hpairs
  refine ⟨hGI.len, ?_, ?_, hGI.tailU, hGI.tailNA, hGI.followSound, hGI.avoidSound,
    hGI.unkInit, hGI.tFollow, ?_, hGI.avoidClosed, hGI.headsClosed, ?_,
    hGI.nopStay, hGI.changedReach, ?_, ?_⟩
  · -- StkInv
    simp only [StkInv]
    refine ⟨by simp, ?_, ?_, hstk.2.2.2⟩
    · intro x hx
      exact hstk.2.1 x (List.mem_cons_of_mem _ hx)
    · cases rest with
      | nil => trivial
      | cons F2 rest2 =>
        intro x hx
        exact hstk.2.2.1 x (List.mem_cons_of_mem _ hx)
  · -- anchor
    simp only [StkAnchor]
    refine ⟨?_, hanch.2⟩
    intro hrest
    have := hanch.1 hrest
    simp at this
  · -- pairs
    simp only [PairsInv]
    refine ⟨?_, hpairs.2⟩
    cases rest with
    | nil => trivial
    | cons F2 rest2 =>
      obtain ⟨pre, h2, hh2, heq, hcond⟩ := hpairs.1
      refine ⟨pre ++ [m], h2, hh2, by rw [List.append_assoc]; exact heq, ?_⟩
      intro d hd
      rcases List.mem_append.mp hd with hdp | hdm
      · exact hcond d hdp
      · have hdm2 : d = m := by simpa using hdm
        subst hdm2
        cases hmk : getMark g d with
        | unknown => exact absurd hmk hsett
        | avoid => exact Or.inl rfl
        | follow =>
          exact Or.inr ⟨rfl, hfnext hmk F2 rfl h2 hh2⟩
  · -- followDeps
    intro w hw
    rcases hGI.followDeps w hw with h1 | h1
    · exact Or.inl h1
    · refine Or.inr ?_
      intro d hd
      rcases h1 d hd with h2 | h2 | h2
      · exact Or.inl h2
      · exact Or.inr (Or.inl h2)
      · rcases mem_elemsOf.mp h2 with ⟨F1, hF1, hdF1⟩
        rcases List.mem_cons.mp hF1 with hFe | hFr
        · subst hFe
          rcases List.mem_cons.mp hdF1 with hde | hdr
          · subst hde
            cases hmk : getMark g d with
            | unknown => exact absurd hmk hsett
            | avoid => exact Or.inl rfl
            | follow => exact Or.inr (Or.inl rfl)
          · exact Or.inr (Or.inr (mem_elemsOf.mpr
              ⟨y :: ys, List.mem_cons_self _ _, hdr⟩))
        · exact Or.inr (Or.inr (mem_elemsOf.mpr ⟨F1, List.mem_cons_of_mem _ hFr, hdF1⟩))
  · -- elemsReach
    intro d hd
    rcases mem_elemsOf.mp hd with ⟨F1, hF1, hdF1⟩
    rcases List.mem_cons.mp hF1 with hFe | hFr
    · subst hFe
      exact hGI.elemsReach d (mem_elemsOf.mpr ⟨m :: y :: ys, List.mem_cons_self _ _,
        List.mem_cons_of_mem _ hdF1⟩)
    · exact hGI.elemsReach d (mem_elemsOf.mpr ⟨F1, List.mem_cons_of_mem _ hFr, hdF1⟩)
  · -- sPending
    rcases hGI.sPending with h1 | h1
    · exact Or.inl h1
    · rcases mem_elemsOf.mp h1 with ⟨F1, hF1, hsF1⟩
      rcases List.mem_cons.mp hF1 with hFe | hFr
      · subst hFe
        rcases List.mem_cons.mp hsF1 with hse | hsr
        · exact Or.inl (hse ▸ hsett)
        · exact Or.inr (mem_elemsOf.mpr ⟨y :: ys, List.mem_cons_self _ _, hsr⟩)
      · exact Or.inr (mem_elemsOf.mpr ⟨F1, List.mem_cons_of_mem _ hFr, hsF1⟩)

theorem trim_ginv {deps : Nat → List Nat} {N : Nat} {rank : Nat → Nat}
    {g0 : List Mark} {s t : Nat}
    (hrank : ∀ i, ∀ j ∈ deps i, rank j < rank i) :
    ∀ (stk : List (List Nat)) (g : List Mark),
      GInv deps N g0 s t g stk → TipResolvable deps g stk →
      HeadsClosed g stk →
      GInv deps N g0 s t (trim g stk).1 (trim g stk).2 := by
  intro stk
  induction stk with
  | nil => intro g hGI _ _; exact hGI
  | cons F rest ih =>
    intro g hGI hTR hHC
    have hFne : F ≠ [] := StkInv_ne hGI.stkinv F (List.mem_cons_self _ _)
    cases F with
    | nil => exact absurd rfl hFne
    | cons m fr =>
      have hm_notin : m ∉ headsOf rest :=
        StkInv_tip_notin hrank hGI.stkinv (List.mem_cons_self _ _)
      simp only [HeadsClosed] at hHC
      simp only [TipResolvable] at hTR
      by_cases hmf : getMark g m = Mark.follow
      · -- the head is already kept: no write
        cases fr with
        | nil =>
          rw [trim_cons_single, if_pos hmf]
          have hpop : GInv deps N g0 s t g rest :=
            pop_ginv hGI (by rw [hmf]; exact Mark.noConfusion)
          refine ih g hpop ?_ hHC.2
          · -- TipResolvable g rest
            cases rest with
            | nil => trivial
            | cons F2 rest2 =>
              simp only [TipResolvable]
              intro h hh
              exact Or.inl (hHC.1 m rfl hmf h hh)
        | cons y ys =>
          rw [trim_cons_multi, if_pos hmf]
          exact shift_ginv hGI (by rw [hmf]; exact Mark.noConfusion)
            (fun _ F2 hF2 h2 hh2 => by
              cases rest with
              | nil => cases hF2
              | cons F3 rest3 =>
                cases hF2
                exact hHC.1 m rfl hmf h2 hh2)
      · -- the head is not kept: it is written avoid
        have hTRm := hTR m rfl
        have hsett : getMark g m = Mark.avoid ∨
            ∀ d ∈ deps m, getMark g d = Mark.avoid := by
          rcases hTRm with h | h | h
          · exact absurd h hmf
          · exact Or.inl h
          · exact Or.inr h.2
        have hnfc : ¬ FollowCond deps g0 s t m := by
          rcases hTRm with h | h | h
          · exact absurd h hmf
          · exact hGI.avoidSound m h
          · exact tip_not_followcond hGI.tFollow h.1 h.2 hGI.avoidSound
              (hGI.elemsReach m (mem_elemsOf.mpr ⟨m :: fr, List.mem_cons_self _ _,
                List.mem_cons_self _ _⟩))
        have hw : GInv deps N g0 s t (setMark g m Mark.avoid) ((m :: fr) :: rest) :=
          write_ginv hGI hmf hnfc hsett hm_notin
        have hmlt : m < g.length := by
          rw [hGI.len]
          exact StkInv_bounds hGI.stkinv (m :: fr) (List.mem_cons_self _ _) m
            (List.mem_cons_self _ _)
        have hM : getMark (setMark g m Mark.avoid) m = Mark.avoid := by
          rw [getMark_setMark, if_pos ⟨rfl, hmlt⟩]
        have hEq : ∀ v, v ≠ m →
            getMark (setMark g m Mark.avoid) v = getMark g v := by
          intro v hv
          rw [getMark_setMark, if_neg]
          rintro ⟨rfl, -⟩
          exact hv rfl
        cases fr with
        | nil =>
          rw [trim_cons_single, if_neg hmf]
          have hpop : GInv deps N g0 s t (setMark g m Mark.avoid) rest :=
            pop_ginv hw (by rw [hM]; exact Mark.noConfusion)
          refine ih _ hpop ?_ ?_
          · -- TipResolvable after the write
            cases rest with
            | nil => trivial
            | cons F2 rest2 =>
              simp only [TipResolvable]
              intro h hh
              have hhne : h ≠ m := by
                rintro rfl
                exact hm_notin (mem_headsOf.mpr ⟨F2, List.mem_cons_self _ _, hh⟩)
              rw [hEq h hhne]
              cases hmk : getMark g h with
              | follow => exact Or.inl rfl
              | avoid => exact Or.inr (Or.inl rfl)
              | unknown =>
                refine Or.inr (Or.inr ⟨rfl, ?_⟩)
                -- deps h = pre ++ [m], pre all avoid
                have hpairs := hGI.pairs
                simp only [PairsInv] at hpairs
                obtain ⟨pre, h2, hh2, heq, hcond⟩ := hpairs.1
                rw [hh] at hh2
                cases hh2
                intro d hd
                rw [← heq] at hd
                rcases List.mem_append.mp hd with hdp | hdm
                · rcases hcond d hdp with hc | hc
                  · by_cases hdm2 : d = m
                    · exact hdm2 ▸ hM
                    · rw [hEq d hdm2]; exact hc
                  · rw [hmk] at hc
                    exact absurd hc.2 Mark.noConfusion
                · have hdm2 : d = m := by simpa using hdm
                  exact hdm2 ▸ hM
          · -- HeadsClosed after the write
            refine headsClosed_transfer ?_ ?_ rest hHC.2
            · intro v hv
              by_cases h : v = m
              · rw [h, hM] at hv; exact absurd hv Mark.noConfusion
              · rw [hEq v h] at hv; exact hv
            · intro v hv
              have hne : v ≠ m := fun h => hmf (h ▸ hv)
              rw [hEq v hne]; exact hv
        | cons y ys =>
          rw [trim_cons_multi, if_neg hmf]
          exact shift_ginv hw (by rw [hM]; exact Mark.noConfusion)
            (fun hfm => absurd hfm (by rw [hM]; exact Mark.noConfusion))

theorem headsClosed_of_follow {g : List Mark} :
    ∀ stk, (∀ F ∈ stk, ∀ h ∈ F.head?, getMark g h = Mark.follow) →
      HeadsClosed g stk := by
  intro stk
  induction stk with
  | nil => intro _; trivial
  | cons F rest ih =>
    intro h
    simp only [HeadsClosed]
    refine ⟨?_, ih (fun F1 h1 => h F1 (List.mem_cons_of_mem _ h1))⟩
    cases rest with
    | nil => trivial
    | cons F2 rest2 =>
      intro h1 hh1 _ h2 hh2
      exact h F2 (List.mem_cons_of_mem _ (List.mem_cons_self _ _)) h2 hh2

theorem markHeads_ginv {deps : Nat → List Nat} {N : Nat} {g0 : List Mark}
    {s t : Nat} {g : List Mark} {n : Nat} {ns : List Nat}
    {rest : List (List Nat)}
    (hGI : GInv deps N g0 s t g ((n :: ns) :: rest))
    (hfn : getMark g n = Mark.follow) :
    GInv deps N g0 s t (markHeads g ((n :: ns) :: rest)) ((n :: ns) :: rest) ∧
      TipResolvable deps (markHeads g ((n :: ns) :: rest)) ((n :: ns) :: rest) ∧
      HeadsClosed (markHeads g ((n :: ns) :: rest)) ((n :: ns) :: rest) := by
  have hb : ∀ f ∈ (n :: ns) :: rest, ∀ h ∈ f.head?, h < g.length := by
    intro f hf h hh
    rw [hGI.len]
    exact StkInv_bounds hGI.stkinv f hf h (head?_mem hh)
  have hHF : ∀ f ∈ (n :: ns) :: rest, ∀ h ∈ f.head?,
      getMark (markHeads g ((n :: ns) :: rest)) h = Mark.follow :=
    markHeads_heads_follow _ g hb
  have hHFh : ∀ h ∈ headsOf ((n :: ns) :: rest),
      getMark (markHeads g ((n :: ns) :: rest)) h = Mark.follow := by
    intro h hh
    rcases mem_headsOf.mp hh with ⟨f, hf, hhf⟩
    exact hHF f hf h hhf
  have hHeadsNA : ∀ h ∈ headsOf ((n :: ns) :: rest), getMark g h ≠ Mark.avoid := by
    intro h hh
    rcases mem_headsOf.mp hh with ⟨f, hf, hhf⟩
    rcases List.mem_cons.mp hf with hfe | hfr
    · subst hfe
      have : n = h := by simpa using hhf
      rw [← this, hfn]
      exact Mark.noConfusion
    · exact hGI.tailNA f hfr h hhf
  have hAvF : ∀ v, getMark (markHeads g ((n :: ns) :: rest)) v = Mark.avoid →
      getMark g v = Mark.avoid := by
    intro v hv
    rcases markHeads_marks ((n :: ns) :: rest) g v with h | h
    · rw [← h]; exact hv
    · rw [h] at hv; exact absurd hv Mark.noConfusion
  have hAvB : ∀ v, getMark g v = Mark.avoid →
      getMark (markHeads g ((n :: ns) :: rest)) v = Mark.avoid := by
    intro v hv
    have hvnh : v ∉ headsOf ((n :: ns) :: rest) := fun hvh => hHeadsNA v hvh hv
    rw [markHeads_not_head _ g v hvnh]
    exact hv
  have hFoP : ∀ v, getMark g v = Mark.follow →
      getMark (markHeads g ((n :: ns) :: rest)) v = Mark.follow :=
    fun v hv => markHeads_preserves_follow _ g v hv
  have hUnB : ∀ v, getMark (markHeads g ((n :: ns) :: rest)) v = Mark.unknown →
      getMark g v = Mark.unknown := by
    intro v hv
    rcases markHeads_marks ((n :: ns) :: rest) g v with h | h
    · rw [← h]; exact hv
    · rw [h] at hv; exact absurd hv Mark.noConfusion
  have hFC : ∀ h ∈ headsOf ((n :: ns) :: rest), FollowCond deps g0 s t h := by
    refine heads_followcond rest (n :: ns) hGI.stkinv hGI.tailU hGI.elemsReach ?_
    intro h hh
    have : n = h := by simpa using hh
    exact this ▸ hGI.followSound n hfn
  refine ⟨⟨?_, hGI.stkinv, hGI.anchor, hGI.tailU, ?_, ?_, ?_, ?_, ?_, ?_, ?_, ?_,
      ?_, ?_, ?_, hGI.elemsReach, ?_⟩, ?_, ?_⟩
  · rw [markHeads_length]; exact hGI.len
  · -- tailNA
    intro F hF h hh
    rw [hHF F (mem_of_tail hF) h hh]
    exact Mark.noConfusion
  · -- followSound
    intro v hv
    rcases markHeads_follow_src hv with h | h
    · exact hGI.followSound v h
    · exact hFC v h
  · -- avoidSound
    intro v hv
    exact hGI.avoidSound v (hAvF v hv)
  · -- unkInit
    intro v hv
    exact hGI.unkInit v (hUnB v hv)
  · -- tFollow
    exact hFoP t hGI.tFollow
  · -- pairs
    exact pairsInv_transfer hAvB hFoP _ hGI.pairs
  · -- avoidClosed
    intro v hv
    rcases hGI.avoidClosed v (hAvF v hv) with h1 | h1
    · exact Or.inl h1
    · exact Or.inr (fun d hd => hAvB d (h1 d hd))
  · -- headsClosed
    refine headsClosed_of_follow _ ?_
    intro F hF h hh
    exact hHF F (mem_of_tail hF) h hh
  · -- followDeps
    intro w hw
    rcases markHeads_follow_src hw with h | h
    · rcases hGI.followDeps w h with h1 | h1
      · exact Or.inl h1
      · refine Or.inr ?_
        intro d hd
        rcases h1 d hd with h2 | h2 | h2
        · exact Or.inl (hAvB d h2)
        · exact Or.inr (Or.inl (hFoP d h2))
        · exact Or.inr (Or.inr h2)
    · rcases mem_headsOf.mp h with ⟨f, hf, hhf⟩
      rcases List.mem_cons.mp hf with hfe | hfr
      · subst hfe
        have hwn : n = w := by simpa using hhf
        subst hwn
        rcases hGI.followDeps n hfn with h1 | h1
        · exact Or.inl h1
        · refine Or.inr ?_
          intro d hd
          rcases h1 d hd with h2 | h2 | h2
          · exact Or.inl (hAvB d h2)
          · exact Or.inr (Or.inl (hFoP d h2))
          · exact Or.inr (Or.inr h2)
      · obtain ⟨pre, Fa, heq, hFaE, hcond⟩ := pairs_pred _ hGI.pairs w
          (by simp only [List.tail_cons]; exact mem_headsOf.mpr ⟨f, hfr, hhf⟩)
        refine Or.inr ?_
        intro d hd
        rw [← heq] at hd
        rcases List.mem_append.mp hd with hdp | hdf
        · rcases hcond d hdp with h2 | h2
          · exact Or.inl (hAvB d h2)
          · exact Or.inr (Or.inl (hFoP d h2))
        · exact Or.inr (Or.inr (hFaE d hdf))
  · -- nopStay
    intro v hv
    exact hAvB v (hGI.nopStay v hv)
  · -- changedReach
    intro v hv
    by_cases h : v ∈ headsOf ((n :: ns) :: rest)
    · exact hGI.elemsReach v (headsOf_subset_elems h)
    · rw [markHeads_not_head _ g v h] at hv
      exact hGI.changedReach v hv
  · -- sPending
    rcases hGI.sPending with h1 | h1
    · refine Or.inl ?_
      intro h2
      exact h1 (hUnB s h2)
    · exact Or.inr h1
  · -- TipResolvable
    simp only [TipResolvable]
    intro h hh
    exact Or.inl (hHF (n :: ns) (List.mem_cons_self _ _) h hh)
  · -- HeadsClosed
    exact headsClosed_of_follow _ hHF

theorem push_ginv {deps : Nat → List Nat} {N : Nat} {g0 : List Mark}
    {s t : Nat} {g : List Mark} {n : Nat} {ns : List Nat}
    {rest : List (List Nat)} {d : Nat} {ds : List Nat}
    (hdeps : ∀ i, ∀ j ∈ deps i, j < N)
    (hGI : GInv deps N g0 s t g ((n :: ns) :: rest))
    (hun : getMark g n = Mark.unknown)
    (hdn : deps n = d :: ds) :
    GInv deps N g0 s t g ((d :: ds) :: (n :: ns) :: rest) := by
  have hUn : getMark g0 n = Mark.unknown := hGI.unkInit n hun
  have hnreach : UReach deps g0 s n :=
    hGI.elemsReach n (mem_elemsOf.mpr ⟨n :: ns, List.mem_cons_self _ _,
      List.mem_cons_self _ _⟩)
  refine ⟨hGI.len, ?_, ?_, ?_, ?_, hGI.followSound, hGI.avoidSound, hGI.unkInit,
    hGI.tFollow, ?_, hGI.avoidClosed, ?_, ?_, hGI.nopStay, hGI.changedReach,
    ?_, ?_⟩
  · -- StkInv
    simp only [StkInv]
    exact ⟨by simp, fun m hm => hdeps n m (hdn ▸ hm),
      fun m hm => ⟨n, rfl, hdn ▸ hm⟩, hGI.stkinv⟩
  · -- anchor
    exact ⟨fun h => absurd h (by simp), hGI.anchor⟩
  · -- tailU
    intro F hF h hh
    rcases List.mem_cons.mp hF with hfe | hfr
    · subst hfe
      have : n = h := by simpa using hh
      exact this ▸ hUn
    · exact hGI.tailU F hfr h hh
  · -- tailNA
    intro F hF h hh
    rcases List.mem_cons.mp hF with hfe | hfr
    · subst hfe
      have hhn : n = h := by simpa using hh
      rw [← hhn, hun]
      exact Mark.noConfusion
    · exact hGI.tailNA F hfr h hh
  · -- pairs
    simp only [PairsInv]
    refine ⟨⟨[], n, rfl, by rw [List.nil_append, hdn], by intro x hx; cases hx⟩, ?_⟩
    exact hGI.pairs
  · -- headsClosed
    simp only [HeadsClosed]
    refine ⟨?_, ?_⟩
    · cases rest with
      | nil => trivial
      | cons F2 rest2 =>
        intro h hh hf
        have : n = h := by simpa using hh
        rw [← this, hun] at hf
        exact absurd hf Mark.noConfusion
    · exact hGI.headsClosed
  · -- followDeps
    intro w hw
    rcases hGI.followDeps w hw with h1 | h1
    · exact Or.inl h1
    · refine Or.inr ?_
      intro x hx
      rcases h1 x hx with h2 | h2 | h2
      · exact Or.inl h2
      · exact Or.inr (Or.inl h2)
      · refine Or.inr (Or.inr ?_)
        rcases mem_elemsOf.mp h2 with ⟨F1, hF1, hxF1⟩
        exact mem_elemsOf.mpr ⟨F1, List.mem_cons_of_mem _ hF1, hxF1⟩
  · -- elemsReach
    intro x hx
    rcases mem_elemsOf.mp hx with ⟨F1, hF1, hxF1⟩
    rcases List.mem_cons.mp hF1 with hfe | hfr
    · subst hfe
      exact UReach_snoc hnreach hUn (hdn ▸ hxF1)
    · exact hGI.elemsReach x (mem_elemsOf.mpr ⟨F1, hfr, hxF1⟩)
  · -- sPending
    rcases hGI.sPending with h1 | h1
    · exact Or.inl h1
    · refine Or.inr ?_
      rcases mem_elemsOf.mp h1 with ⟨F1, hF1, hsF1⟩
      exact mem_elemsOf.mpr ⟨F1, List.mem_cons_of_mem _ hF1, hsF1⟩

theorem pstep_none {deps : Nat → List Nat} {q : PState}
    (h : pstep deps q = none) : q.stk = [] := by
  obtain ⟨g, stk⟩ := q
  cases stk with
  | nil => rfl
  | cons f rest =>
    exfalso
    cases f with
    | nil => exact Option.noConfusion h
    | cons n ns =>
      cases hmark : getMark g n with
      | avoid => simp [pstep, hmark] at h
      | follow => simp [pstep, hmark] at h
      | unknown =>
        cases hdn : deps n with
        | nil => simp [pstep, hmark, hdn] at h
        | cons d ds => simp [pstep, hmark, hdn] at h

theorem pstep_ginv {deps : Nat → List Nat} {N : Nat} {rank : Nat → Nat}
    {g0 : List Mark} {s t : Nat}
    (hdeps : ∀ i, ∀ j ∈ deps i, j < N)
    (hrank : ∀ i, ∀ j ∈ deps i, rank j < rank i)
    {q q2 : PState}
    (hGI : GInv deps N g0 s t q.g q.stk)
    (hstep : pstep deps q = some q2) :
    GInv deps N g0 s t q2.g q2.stk := by
  obtain ⟨g, stk⟩ := q
  cases stk with
  | nil => exact Option.noConfusion hstep
  | cons F rest =>
    simp only at hGI
    have hFne : F ≠ [] := StkInv_ne hGI.stkinv F (List.mem_cons_self _ _)
    cases F with
    | nil => exact absurd rfl hFne
    | cons n ns =>
      cases hmark : getMark g n with
      | avoid =>
        have hps : pstep deps ⟨g, (n :: ns) :: rest⟩ =
            some ⟨(trim g ((n :: ns) :: rest)).1,
              (trim g ((n :: ns) :: rest)).2⟩ := by
          simp only [pstep, hmark]
        rw [hps, Option.some_inj] at hstep
        subst hstep
        refine trim_ginv hrank _ g hGI ?_ ?_
        · simp only [TipResolvable]
          intro h hh
          have : n = h := by simpa using hh
          exact Or.inr (Or.inl (this ▸ hmark))
        · simp only [HeadsClosed]
          refine ⟨?_, hGI.headsClosed⟩
          cases rest with
          | nil => trivial
          | cons F2 rest2 =>
            intro h hh hf
            have : n = h := by simpa using hh
            rw [← this, hmark] at hf
            exact absurd hf Mark.noConfusion
      | unknown =>
        cases hdn : deps n with
        | nil =>
          have hps : pstep deps ⟨g, (n :: ns) :: rest⟩ =
              some ⟨(trim g ((n :: ns) :: rest)).1,
                (trim g ((n :: ns) :: rest)).2⟩ := by
            simp only [pstep, hmark, hdn]
          rw [hps, Option.some_inj] at hstep
          subst hstep
          refine trim_ginv hrank _ g hGI ?_ ?_
          · simp only [TipResolvable]
            intro h hh
            have hnh : n = h := by simpa using hh
            refine Or.inr (Or.inr ⟨hnh ▸ hmark, ?_⟩)
            intro d hd
            rw [← hnh, hdn] at hd
            cases hd
          · simp only [HeadsClosed]
            refine ⟨?_, hGI.headsClosed⟩
            cases rest with
            | nil => trivial
            | cons F2 rest2 =>
              intro h hh hf
              have : n = h := by simpa using hh
              rw [← this, hmark] at hf
              exact absurd hf Mark.noConfusion
        | cons d ds =>
          have hps : pstep deps ⟨g, (n :: ns) :: rest⟩ =
              some ⟨g, (d :: ds) :: (n :: ns) :: rest⟩ := by
            simp only [pstep, hmark, hdn]
          rw [hps, Option.some_inj] at hstep
          subst hstep
          exact push_ginv hdeps hGI hmark hdn
      | follow =>
        have hps : pstep deps ⟨g, (n :: ns) :: rest⟩ =
            some ⟨(trim (markHeads g ((n :: ns) :: rest)) ((n :: ns) :: rest)).1,
              (trim (markHeads g ((n :: ns) :: rest)) ((n :: ns) :: rest)).2⟩ := by
          simp only [pstep, hmark]
        rw [hps, Option.some_inj] at hstep
        subst hstep
        obtain ⟨hGm, hTRm, hHCm⟩ := markHeads_ginv hGI hmark
        exact trim_ginv hrank _ _ hGm hTRm hHCm

theorem prun_ginv {deps : Nat → List Nat} {N : Nat} {rank : Nat → Nat}
    {g0 : List Mark} {s t : Nat}
    (hdeps : ∀ i, ∀ j ∈ deps i, j < N)
    (hrank : ∀ i, ∀ j ∈ deps i, rank j < rank i) :
    ∀ (fuel : Nat) (q : PState) (gfin : List Mark),
      GInv deps N g0 s t q.g q.stk → prun deps fuel q = some gfin →
      GInv deps N g0 s t gfin [] := by
  intro fuel
  induction fuel with
  | zero => intro q gfin _ h; exact Option.noConfusion h
  | succ fuel ih =>
    intro q gfin hGI hrun
    have hrun2 : (match pstep deps q with
        | none => some q.g
        | some q2 => prun deps fuel q2) = some gfin := hrun
    cases hps : pstep deps q with
    | none =>
      rw [hps] at hrun2
      have hstk : q.stk = [] := pstep_none hps
      have hg : q.g = gfin := Option.some_inj.mp hrun2
      rw [← hg]
      rw [hstk] at hGI
      exact hGI
    | some q2 =>
      rw [hps] at hrun2
      exact ih q2 gfin (pstep_ginv hdeps hrank hGI hps) hrun2

theorem settled_reach {deps : Nat → List Nat} {N : Nat} {g0 : List Mark}
    {s t : Nat} {g : List Mark}
    (hGI : GInv deps N g0 s t g [])
    (htf0 : getMark g0 t = Mark.follow) :
    ∀ w v, UReach deps g0 w v → getMark g w ≠ Mark.unknown →
      getMark g v ≠ Mark.unknown := by
  intro w v h
  induction h with
  | refl a => exact id
  | step hU hb hr ih =>
    rename_i a b c
    intro hw
    refine ih ?_
    cases hga : getMark g a with
    | unknown => exact absurd hga hw
    | avoid =>
      rcases hGI.avoidClosed a hga with h1 | h1
      · rw [h1] at hU
        exact absurd hU Mark.noConfusion
      · rw [h1 b hb]
        exact Mark.noConfusion
    | follow =>
      rcases hGI.followDeps a hga with h1 | h1
      · subst h1
        rw [htf0] at hU
        exact absurd hU Mark.noConfusion
      · rcases h1 b hb with h2 | h2 | h2
        · rw [h2]; exact Mark.noConfusion
        · rw [h2]; exact Mark.noConfusion
        · simp [elemsOf] at h2

theorem ginv_init {deps : Nat → List Nat} {N : Nat} {g0 : List Mark}
    {s t : Nat}
    (hlen : g0.length = N) (hs : s < N)
    (htf : getMark g0 t = Mark.follow)
    (honly : ∀ v, getMark g0 v = Mark.follow → v = t) :
    GInv deps N g0 s t g0 [[s]] := by
  refine ⟨hlen, ?_, ?_, ?_, ?_, ?_, ?_, fun v h => h, htf, ?_, ?_, ?_, ?_,
    fun v h => h, ?_, ?_, ?_⟩
  · simp only [StkInv]
    refine ⟨by simp, ?_, trivial, trivial⟩
    intro m hm
    have : m = s := by simpa using hm
    exact this ▸ hs
  · exact ⟨fun _ => rfl, trivial⟩
  · intro F hF
    simp at hF
  · intro F hF
    simp at hF
  · intro v hv
    exact Or.inl (honly v hv)
  · intro v hv hfc
    rcases hfc with rfl | ⟨hU, -, -⟩
    · rw [htf] at hv
      exact Mark.noConfusion hv
    · rw [hU] at hv
      exact Mark.noConfusion hv
  · simp only [PairsInv]
    exact ⟨trivial, trivial⟩
  · intro v hv
    exact Or.inl hv
  · trivial
  · intro w hw
    exact Or.inl (honly w hw)
  · intro v hv
    exact absurd rfl hv
  · intro x hx
    have hxs : x = s := by simpa [elemsOf] using hx
    subst hxs
    exact UReach.refl x
  · refine Or.inr ?_
    simp [elemsOf]

/-- C1 (amended): assume the dependency references stay in range, the
references are acyclic (a rank strictly decreases along them), and the
initial marks keep exactly the target t (everything else unknown or
avoided, the latter being the nop premarks).  Then whenever `pathfind`
from start s halts, a step v ends kept iff v is the target itself or v is
an initially-unknown step lying on a dependency path from s to t whose
step sources are all initially unknown; v ends avoided iff it is not
kept-eligible but is either premarked avoided or explored (reachable from
s through initially-unknown steps); and v stays unknown iff it is
initially unknown and not reachable from s through initially-unknown
steps.  (The original claim, with plain dependency paths and without the
target/nop provisos, is refuted by the counterexample.) -/
theorem pathfind_marks_characterization (deps : Nat → List Nat) (N : Nat)
    (rank : Nat → Nat) (g0 : List Mark) (s t : Nat) (fuel : Nat)
    (gfin : List Mark)
    (hlen : g0.length = N)
    (hdeps : ∀ i, ∀ j ∈ deps i, j < N)
    (hrank : ∀ i, ∀ j ∈ deps i, rank j < rank i)
    (hs : s < N)
    (htf : getMark g0 t = Mark.follow)
    (honly : ∀ v, getMark g0 v = Mark.follow → v = t)
    (hrun : prun deps fuel ⟨g0, [[s]]⟩ = some gfin) :
    ∀ v, (getMark gfin v = Mark.follow ↔ FollowCond deps g0 s t v) ∧
      (getMark gfin v = Mark.unknown ↔
        getMark g0 v = Mark.unknown ∧ ¬ UReach deps g0 s v) ∧
      (getMark gfin v = Mark.avoid ↔ ¬ FollowCond deps g0 s t v ∧
        (getMark g0 v = Mark.avoid ∨
          (getMark g0 v = Mark.unknown ∧ UReach deps g0 s v))) := by
  have hGIf : GInv deps N g0 s t gfin [] :=
    prun_ginv hdeps hrank fuel ⟨g0, [[s]]⟩ gfin
      (ginv_init hlen hs htf honly) hrun
  have hsettled : ∀ v, UReach deps g0 s v → getMark gfin v ≠ Mark.unknown := by
    intro v hv
    refine settled_reach hGIf htf s v hv ?_
    rcases hGIf.sPending with h1 | h1
    · exact h1
    · simp [elemsOf] at h1
  intro v
  refine ⟨⟨fun hv => hGIf.followSound v hv, ?_⟩, ⟨?_, ?_⟩, ⟨?_, ?_⟩⟩
  · -- FollowCond → follow
    intro hfc
    rcases hfc with rfl | ⟨hU, hsv, hvt⟩
    · exact hGIf.tFollow
    · cases hmk : getMark gfin v with
      | unknown => exact absurd hmk (hsettled v hsv)
      | avoid => exact absurd (Or.inr ⟨hU, hsv, hvt⟩) (hGIf.avoidSound v hmk)
      | follow => rfl
  · -- unknown → unexplored
    intro hv
    exact ⟨hGIf.unkInit v hv, fun hr => hsettled v hr hv⟩
  · -- unexplored → unknown
    rintro ⟨hU, hnr⟩
    by_cases h : getMark gfin v = getMark g0 v
    · rw [h]; exact hU
    · exact absurd (hGIf.changedReach v h) hnr
  · -- avoid → conditions
    intro hv
    refine ⟨hGIf.avoidSound v hv, ?_⟩
    cases hg0 : getMark g0 v with
    | avoid => exact Or.inl rfl
    | unknown =>
      refine Or.inr ⟨rfl, hGIf.changedReach v ?_⟩
      rw [hv, hg0]
      exact Mark.noConfusion
    | follow =>
      have := honly v hg0
      subst this
      rw [hGIf.tFollow] at hv
      exact absurd hv Mark.noConfusion
  · -- conditions → avoid
    rintro ⟨hnfc, hsrc⟩
    rcases hsrc with hnop | ⟨hU, hr⟩
    · exact hGIf.nopStay v hnop
    · cases hmk : getMark gfin v with
      | unknown => exact absurd hmk (hsettled v hr)
      | follow => exact absurd (hGIf.followSound v hmk) hnfc
      | avoid => rfl

/-- C1 amended witness: start 0 depends on target 1; the run keeps both,
and the characterization applies at step 0. -/
theorem pathfind_marks_characterization_witness :
    ([Mark.unknown, Mark.follow] : List Mark).length = 2 ∧
    (∀ i, ∀ j ∈ depsOf [⟨0, "build", "a", [1], 1⟩, ⟨1, "build", "b", [], 1⟩] i,
      j < 2) ∧
    (∀ i, ∀ j ∈ depsOf [⟨0, "build", "a", [1], 1⟩, ⟨1, "build", "b", [], 1⟩] i,
      (if j = 0 then 1 else 0) < (if i = 0 then 1 else (0 : Nat))) ∧
    0 < 2 ∧
    getMark [Mark.unknown, Mark.follow] 1 = Mark.follow ∧
    (∀ v, getMark [Mark.unknown, Mark.follow] v = Mark.follow → v = 1) ∧
    prun (depsOf [⟨0, "build", "a", [1], 1⟩, ⟨1, "build", "b", [], 1⟩]) 3
      ⟨[Mark.unknown, Mark.follow], [[0]]⟩ = some [Mark.follow, Mark.follow] ∧
    (getMark [Mark.follow, Mark.follow] 0 = Mark.follow ↔
      FollowCond (depsOf [⟨0, "build", "a", [1], 1⟩, ⟨1, "build", "b", [], 1⟩])
        [Mark.unknown, Mark.follow] 0 1 0) := by
  have hd : ∀ i, ∀ j ∈ depsOf
      [Action.mk 0 "build" "a" [1] 1, Action.mk 1 "build" "b" [] 1] i, j < 2 := by
    intro i j hj
    match i with
    | 0 =>
      simp [depsOf] at hj
      omega
    | 1 => simp [depsOf] at hj
    | n + 2 =>
      simp only [depsOf, List.getD_cons_succ, List.getD_nil] at hj
      simp [show (default : Action).deps = [] from rfl] at hj
  have hr : ∀ i, ∀ j ∈ depsOf
      [Action.mk 0 "build" "a" [1] 1, Action.mk 1 "build" "b" [] 1] i,
      (fun n => if n = 0 then 1 else (0 : Nat)) j <
        (fun n => if n = 0 then 1 else (0 : Nat)) i := by
    intro i j hj
    match i with
    | 0 =>
      simp [depsOf] at hj
      subst hj
      decide
    | 1 => simp [depsOf] at hj
    | n + 2 =>
      simp only [depsOf, List.getD_cons_succ, List.getD_nil] at hj
      simp [show (default : Action).deps = [] from rfl] at hj
  have ho : ∀ v, getMark [Mark.unknown, Mark.follow] v = Mark.follow → v = 1 := by
    intro v hv
    match v with
    | 0 => exact absurd hv (by decide)
    | 1 => rfl
    | n + 2 =>
      exfalso
      simp only [getMark, List.getD_cons_succ, List.getD_nil] at hv
      exact Mark.noConfusion hv
  exact ⟨rfl, hd, hr, by decide, rfl, ho, rfl,
    (pathfind_marks_characterization
      (depsOf [Action.mk 0 "build" "a" [1] 1, Action.mk 1 "build" "b" [] 1]) 2
      (fun n => if n = 0 then 1 else 0) [Mark.unknown, Mark.follow] 0 1 3
      [Mark.follow, Mark.follow] rfl hd hr (by decide) rfl ho rfl 0).1⟩

end Actiongraph
